import Mathlib

/-!
Verification of the nionutils list-model module (`nion/utils/ListModel.py`).

The development shallowly embeds the two components of the module:

* the predicate tree (`Filter` and its subclasses), modelled as heap-allocated
  nodes so that reference sharing, in-place mutation and `__deepcopy__` are
  faithfully represented;
* the view engine (`FilteredListModel`), modelled as a state machine whose
  steps are the container-driven callbacks (`__item_inserted`,
  `__item_removed`, the per-item content-changed callback) and the public
  configuration calls (`filter`/`sort_key`/`sort_reverse` setters,
  `begin_change`/`end_change`).

Python items are identified by their identity (`==` on the plain objects used
here is identity); an item's mutable content is read through an environment
`env : ι → C` supplied at each step, mirroring that the engine re-reads item
attributes whenever a predicate or sort key is evaluated.  Python assertions
and index errors are modelled by returning `none`.
-/

namespace NionListModel

/-- Python `list.insert(i, a)`: insert before position `i`, appending when `i`
is at least the length (negative indices never occur in this module). -/
def pyInsert {α : Type} (l : List α) (i : Nat) (a : α) : List α :=
  l.take i ++ a :: l.drop i

/-- Python `len(set(l)) == len(l)`: no element occurs twice. -/
def allDistinct {α : Type} [DecidableEq α] : List α → Bool
  | [] => true
  | x :: xs => !(xs.contains x) && allDistinct xs

/-! ## Predicate tree -/

/-- Attribute values of the objects the predicates are applied to: integers,
strings, and date-like values exposing `year`/`month`/`day`. -/
inductive Val where
  | int (n : Int)
  | str (s : String)
  | date (year month day : Int)
deriving DecidableEq

/-- An item as the predicates see it: a total map from attribute name to value
(`getattr(d, key)`; the predicate contract requires every accessed attribute
to exist). -/
def Item : Type := String → Val

/-- `d_value.year`.  Only applied to date-valued attributes (the
partial-date contract); the default on other values is junk standing for the
`AttributeError` Python would raise. -/
def Val.yearOf : Val → Int
  | .date y _ _ => y
  | _ => 0

/-- `d_value.month`. -/
def Val.monthOf : Val → Int
  | .date _ m _ => m
  | _ => 0

/-- `d_value.day`. -/
def Val.dayOf : Val → Int
  | .date _ _ d => d
  | _ => 0

/-- `d_value` as a string, for `startswith` and `re.search`; only string
attributes are passed to those predicates. -/
def Val.strOf : Val → String
  | .str s => s
  | _ => ""

/-- `EqFilter.matches` with the default comparator `operator.eq`. -/
def eqMatches (key : String) (value : Val) (d : Item) : Bool :=
  d key == value

/-- `NotEqFilter.matches` with the default comparator. -/
def notEqMatches (key : String) (value : Val) (d : Item) : Bool :=
  !(d key == value)

/-- `StartsWithFilter.matches`. -/
def startsWithMatches (key : String) (value : String) (d : Item) : Bool :=
  (d key).strOf.startsWith value

/-- Python truthiness of the optional integer fields of the partial-date
filter (`if self.__year:`): `None` and `0` are both falsy. -/
def truthyInt : Option Int → Bool
  | none => false
  | some n => !(n == 0)

/-- `PartialDateFilter.matches`: each truthy field must equal the
corresponding component of the date-valued attribute. -/
def dateFieldsMatch (year month day : Option Int) (v : Val) : Bool :=
  if truthyInt year && !(v.yearOf == year.getD 0) then false
  else if truthyInt month && !(v.monthOf == month.getD 0) then false
  else if truthyInt day && !(v.dayOf == day.getD 0) then false
  else true

/-- One filter object on the heap.  Combinators hold heap addresses of their
children (Python object references); leaf parameters are immutable values set
at construction.  `filterN` is the base `Filter` class with its stored
`default` verdict. -/
inductive Node where
  | filterN (dflt : Bool)
  | andN (filters : List Nat)
  | orN (filters : List Nat)
  | notN (filter : Nat)
  | eqN (key : String) (value : Val)
  | notEqN (key : String) (value : Val)
  | startsWithN (key : String) (value : String)
  | textN (key : String) (text : String)
  | dateN (key : String) (year month day : Option Int)
deriving DecidableEq

/-- The heap of filter objects: address = list index, allocation = append. -/
abbrev Store : Type := List Node

/-- `matches(d)` for the object at address `a`.  `research t s` stands for
`re.search(t, s, re.IGNORECASE) is not None`, delegated to Python's `re`
library and therefore a parameter of the model.  The fuel bounds the depth of
reference chains; stores built by construction and deep copy are acyclic and
theorems supply sufficient fuel through `okAbove`. -/
def evalNode (research : String → String → Bool) (st : Store) (d : Item) :
    Nat → Nat → Bool
  | 0, _ => false
  | fuel+1, a =>
    match st[a]? with
    | none => false
    | some (.filterN dflt) => dflt
    | some (.andN fs) => fs.all fun f => evalNode research st d fuel f
    | some (.orN fs) => fs.any fun f => evalNode research st d fuel f
    | some (.notN f) => !(evalNode research st d fuel f)
    | some (.eqN k v) => eqMatches k v d
    | some (.notEqN k v) => notEqMatches k v d
    | some (.startsWithN k v) => startsWithMatches k v d
    | some (.textN k t) => research t ((d k).strOf)
    | some (.dateN k y m dd) => dateFieldsMatch y m dd (d k)

/-- The object graph rooted at `a` is well formed within depth `fuel` and
lives entirely at addresses `≥ lo` (with `lo = 0` this is plain acyclic
well-formedness). -/
def okAbove (lo : Nat) (st : Store) : Nat → Nat → Bool
  | 0, _ => false
  | fuel+1, a =>
    decide (lo ≤ a) &&
    match st[a]? with
    | none => false
    | some (.andN fs) => fs.all fun f => okAbove lo st fuel f
    | some (.orN fs) => fs.all fun f => okAbove lo st fuel f
    | some (.notN f) => okAbove lo st fuel f
    | some _ => true

/-- `__deepcopy__`: allocate a fresh copy of the object graph rooted at `a`;
leaf parameters are copied by value, combinators deep-copy their children.
The Python implementation allocates the parent object before its children and
keeps a memo table; neither affects the value of any later `matches` call on
an acyclic graph, and the model allocates children first.  Returns the
extended store and the address of the copy. -/
def deepcopyNode : Nat → Store → Nat → Store × Nat
  | 0, st, _ => (st ++ [.filterN false], List.length st)
  | fuel+1, st, a =>
    match st[a]? with
    | none => (st ++ [.filterN false], List.length st)
    | some (.andN fs) =>
      let p := fs.foldl
        (fun (q : Store × List Nat) f =>
          let r := deepcopyNode fuel q.1 f
          (r.1, q.2 ++ [r.2]))
        (st, [])
      (p.1 ++ [.andN p.2], List.length p.1)
    | some (.orN fs) =>
      let p := fs.foldl
        (fun (q : Store × List Nat) f =>
          let r := deepcopyNode fuel q.1 f
          (r.1, q.2 ++ [r.2]))
        (st, [])
      (p.1 ++ [.orN p.2], List.length p.1)
    | some (.notN f) =>
      let r := deepcopyNode fuel st f
      (r.1 ++ [.notN r.2], List.length r.1)
    | some n => (st ++ [n], List.length st)

/-- In-place mutation of the object at address `b` (the way a live filter can
change: through a reference held elsewhere). -/
def mutateStore (st : Store) (b : Nat) (n : Node) : Store :=
  List.set st b n

/-! ## View engine: state, events -/

/-- The insert/remove notifications the engine sends downstream
(`notify_insert_item` / `notify_remove_item` with the items key). -/
inductive Event (ι : Type) where
  | ins (item : ι) (index : Nat)
  | rem (item : ι) (index : Nat)
deriving DecidableEq

/-- Replay one notification against a plain list. -/
def applyEvent {ι : Type} (l : List ι) : Event ι → List ι
  | .ins a i => pyInsert l i a
  | .rem _ i => l.eraseIdx i

/-- Replay a notification sequence in order. -/
def replay {ι : Type} (evs : List (Event ι)) (l : List ι) : List ι :=
  evs.foldl applyEvent l

/-- The mutable state of a `FilteredListModel`: the master list, the derived
list, the current filter and sort settings, and the change-batch depth.
Items are identities `ι`; their content of type `C` is read through an
environment supplied to each operation. -/
structure EngineState (ι C K : Type) where
  master : List ι
  items : List ι
  fltr : C → Bool
  sortKey : Option (C → K)
  sortRev : Bool
  level : Int

/-- The state of a freshly constructed `FilteredListModel` (no container yet):
empty lists, the always-true default filter `Filter(True)`, no sort key. -/
def initState (ι C K : Type) : EngineState ι C K :=
  { master := [], items := [], fltr := fun _ => true, sortKey := none,
    sortRev := false, level := 0 }

/-- `operator.gt if self.sort_reverse else operator.lt`, on sort keys. -/
def sortOperatorOf {K : Type} [LinearOrder K] (rev : Bool) : K → K → Bool :=
  if rev then fun a b => decide (b < a) else fun a b => decide (a < b)

/-- The binary-search loop of `__find_sorted_index_for_item`; `p mid` is
`sort_operator(sort_key(items[mid]), item_sort_key)`.  The fuel only bounds
the iteration count (`high - low` shrinks every round); every call supplies
`high - low ≤ fuel`, so the fuel never runs out. -/
def bsearchLoop (p : Nat → Bool) : Nat → Nat → Nat → Nat
  | 0, low, _ => low
  | fuel+1, low, high =>
    if low < high then
      let mid := (low + high) / 2
      if p mid then bsearchLoop p fuel (mid+1) high
      else bsearchLoop p fuel low mid
    else low

/-- `__find_sorted_index_for_item(item, items, sort_key, sort_operator)`. -/
def findSortedIndexForItem {ι C K : Type} (env : ι → C) (item : ι)
    (items : List ι) (sortKey : C → K) (sortOp : K → K → Bool) : Nat :=
  bsearchLoop
    (fun mid =>
      match items[mid]? with
      | some x => sortOp (sortKey (env x)) (sortKey (env item))
      | none => false)
    items.length 0 items.length

/-- `__find_unsorted_index_for_item(item, master_items, filter)`: the number
of master items strictly before the first occurrence of `item` that pass the
filter. -/
def findUnsortedIndexForItem {ι C : Type} [DecidableEq ι] (env : ι → C)
    (item : ι) : List ι → (C → Bool) → Nat
  | [], _ => 0
  | x :: xs, fltr =>
    if x = item then 0
    else (if fltr (env x) then 1 else 0) + findUnsortedIndexForItem env item xs fltr

/-- `__inserted_master_item(before_index, item)`.  The `before_index`
parameter of the source is dead when the filter matches: both branches
recompute it (binary search when sorted, master-order count when unsorted),
so the model does not take it. -/
def insertedMasterItem {ι C K : Type} [DecidableEq ι] [LinearOrder K]
    (env : ι → C) (s : EngineState ι C K) (item : ι) :
    EngineState ι C K × List (Event ι) :=
  if s.level > 0 then (s, [])
  else if s.fltr (env item) then
    let beforeIndex :=
      match s.sortKey with
      | some sk => findSortedIndexForItem env item s.items sk (sortOperatorOf s.sortRev)
      | none => findUnsortedIndexForItem env item s.master s.fltr
    ({ s with items := pyInsert s.items beforeIndex item },
      [.ins item beforeIndex])
  else (s, [])

/-- `__removed_master_item(index, item)`.  The `index` parameter of the source
is dead: it is recomputed as `self.__items.index(item)` (first occurrence)
when the item is present. -/
def removedMasterItem {ι C K : Type} [DecidableEq ι]
    (s : EngineState ι C K) (item : ι) :
    EngineState ι C K × List (Event ι) :=
  if s.level > 0 then (s, [])
  else if item ∈ s.items then
    let index := s.items.indexOf item
    ({ s with items := s.items.eraseIdx index }, [.rem item index])
  else (s, [])

/-- `__updated_master_item(item)`.  In the two relocation branches the source
passes `before_index` resp. `before_index - 1` to `__inserted_master_item`,
which recomputes the insertion index anyway (see `insertedMasterItem`). -/
def updatedMasterItem {ι C K : Type} [DecidableEq ι] [LinearOrder K]
    (env : ι → C) (s : EngineState ι C K) (item : ι) :
    EngineState ι C K × List (Event ι) :=
  if s.level > 0 then (s, [])
  else if s.fltr (env item) then
    match s.sortKey with
    | some sk =>
      let beforeIndex := findSortedIndexForItem env item s.items sk (sortOperatorOf s.sortRev)
      if item ∈ s.items then
        let index := s.items.indexOf item
        if beforeIndex < index then
          let r1 := removedMasterItem s item
          let r2 := insertedMasterItem env r1.1 item
          (r2.1, r1.2 ++ r2.2)
        else if beforeIndex > index then
          let r1 := removedMasterItem s item
          let r2 := insertedMasterItem env r1.1 item
          (r2.1, r1.2 ++ r2.2)
        else (s, [])
      else insertedMasterItem env s item
    | none =>
      if item ∈ s.items then (s, [])
      else insertedMasterItem env s item
  else
    if item ∈ s.items then removedMasterItem s item
    else (s, [])

/-- Stable insertion: `a` goes after every element `b` with `cmp b a` (i.e.
`b` strictly precedes `a`) and before the first other one. -/
def stableInsert {ι : Type} (cmp : ι → ι → Bool) (a : ι) : List ι → List ι
  | [] => [a]
  | b :: l => if cmp b a then b :: stableInsert cmp a l else a :: b :: l

/-- Python `list.sort` is a stable sort, and a stable sort's output is
uniquely determined by the strict "precedes" relation, so insertion sort
models `master_items.sort(key=self.sort_key, reverse=self.sort_reverse)`
exactly (`cmp x y` = the key of `x` strictly precedes the key of `y` in the
requested direction). -/
def stableSort {ι : Type} (cmp : ι → ι → Bool) : List ι → List ι
  | [] => []
  | a :: l => stableInsert cmp a (stableSort cmp l)

/-- `__build_items` without its duplicate assertion (checked by the caller
model `updateItems`): stable-sort the master snapshot when a sort key is set,
then keep the items passing the filter, in order. -/
def buildItems {ι C K : Type} [LinearOrder K] (env : ι → C)
    (s : EngineState ι C K) : List ι :=
  let ms :=
    match s.sortKey with
    | some sk =>
      stableSort (fun x y => sortOperatorOf s.sortRev (sk (env x)) (sk (env y))) s.master
    | none => s.master
  ms.filter fun i => s.fltr (env i)

/-- The diff walk of `__update_items`: transform the working copy `cur` into
`target`, position by position, emitting remove/insert notifications exactly
alongside each list mutation.  The source keeps `old_items` and
`self.__items` identical throughout, so one list suffices.  `none` models a
failing assertion (`assert index <= old_index`, `assert item not in
self.__items`).  When the targets are exhausted, the trailing
`while index < len(old_items)` loop removes each leftover at the then-current
position `index`. -/
def updateLoop {ι : Type} [DecidableEq ι] (cur : List ι) (index : Nat) :
    List ι → Option (List ι × List (Event ι))
  | [] =>
    some (cur.take index, (cur.drop index).map fun it => .rem it index)
  | item :: rest =>
    if item ∈ cur then
      let oldIndex := cur.indexOf item
      if index ≤ oldIndex then
        if index < oldIndex then
          let cur1 := cur.eraseIdx oldIndex
          if item ∈ cur1 then none
          else
            let cur2 := pyInsert cur1 index item
            (updateLoop cur2 (index+1) rest).map fun r =>
              (r.1, .rem item oldIndex :: .ins item index :: r.2)
        else
          updateLoop cur (index+1) rest
      else none
    else
      let cur2 := pyInsert cur index item
      (updateLoop cur2 (index+1) rest).map fun r =>
        (r.1, .ins item index :: r.2)

/-- `__update_items`: suppressed while the change level is positive; otherwise
assert master uniqueness (in `__build_items` and again afterwards), build the
target list, assert its uniqueness, and run the diff walk. -/
def updateItems {ι C K : Type} [DecidableEq ι] [LinearOrder K] (env : ι → C)
    (s : EngineState ι C K) : Option (EngineState ι C K × List (Event ι)) :=
  if s.level > 0 then some (s, [])
  else if allDistinct s.master then
    let target := buildItems env s
    if allDistinct target then
      (updateLoop s.items 0 target).map fun r => ({ s with items := r.1 }, r.2)
    else none
  else none

/-- One externally triggered operation on the engine.  The first three are the
container-driven callbacks; the rest are the public configuration surface. -/
inductive Op (ι C K : Type) where
  | insertItem (beforeIndex : Nat) (item : ι)
  | removeItem (index : Nat)
  | updateItem (item : ι)
  | setFilter (f : C → Bool)
  | setSortKey (sk : Option (C → K))
  | setSortReverse (b : Bool)
  | beginChange
  | endChange

/-- One engine step under the item-content environment `env` in effect at that
moment.  `none` models a failing assertion or an index error. -/
def step {ι C K : Type} [DecidableEq ι] [LinearOrder K] (env : ι → C)
    (s : EngineState ι C K) :
    Op ι C K → Option (EngineState ι C K × List (Event ι))
  | .insertItem beforeIndex item =>
    -- __item_inserted: assert not item in master_items; master.insert;
    -- (listener registration not modelled); __inserted_master_item
    if item ∈ s.master then none
    else some (insertedMasterItem env
      { s with master := pyInsert s.master beforeIndex item } item)
  | .removeItem index =>
    -- __item_removed: del master_items[index] (IndexError when out of
    -- range); __removed_master_item on the removed item
    if h : index < s.master.length then
      let item := s.master.get ⟨index, h⟩
      some (removedMasterItem { s with master := s.master.eraseIdx index } item)
    else none
  | .updateItem item =>
    -- item_content_changed: assert item in master_items; __updated_master_item
    if item ∈ s.master then some (updatedMasterItem env s item) else none
  | .setFilter f => updateItems env { s with fltr := f }
  | .setSortKey sk => updateItems env { s with sortKey := sk }
  | .setSortReverse b => updateItems env { s with sortRev := b }
  | .beginChange => some ({ s with level := s.level + 1 }, [])
  | .endChange =>
    let s1 : EngineState ι C K := { s with level := s.level - 1 }
    if s1.level = 0 then updateItems env s1 else some (s1, [])

/-- Run a sequence of operations, each under the environment in effect when it
runs, collecting all emitted notifications in order. -/
def runOps {ι C K : Type} [DecidableEq ι] [LinearOrder K] :
    List ((ι → C) × Op ι C K) → EngineState ι C K →
    Option (EngineState ι C K × List (Event ι))
  | [], s => some (s, [])
  | (env, op) :: rest, s =>
    match step env s op with
    | none => none
    | some (s1, evs1) =>
      match runOps rest s1 with
      | none => none
      | some (s2, evs2) => some (s2, evs1 ++ evs2)

/-- The container-driven operations (master-list mutations and item updates),
as opposed to the configuration calls. -/
def ContainerOp {ι C K : Type} : Op ι C K → Prop
  | .insertItem _ _ => True
  | .removeItem _ => True
  | .updateItem _ => True
  | _ => False

/-- The structural well-formedness the engine maintains: both lists are
duplicate-free, and outside a batch the derived list only holds master items
(inside a batch a removed master item may linger in the derived list until the
closing resynchronization). -/
def NodupInv {ι C K : Type} (s : EngineState ι C K) : Prop :=
  s.master.Nodup ∧ s.items.Nodup ∧
    (¬s.level > 0 → ∀ x ∈ s.items, x ∈ s.master)

/-- A default-configured engine in sync: never-assigned filter (the
constant-true `Filter(True)`), no sort key, no batch, derived = master. -/
def DefaultSync {ι C K : Type} (s : EngineState ι C K) : Prop :=
  s.items = s.master ∧ s.fltr = (fun _ => true) ∧ s.sortKey = none ∧
    s.level = 0 ∧ s.master.Nodup

/-- The synchronization invariant maintained by the single-item container
paths at batch depth 0: both lists duplicate-free, the derived list holds
exactly the master items passing the filter, equals the filtered master in
master order when unsorted, and is sorted by the sort key (in the requested
direction) when sorted. -/
def GoodState {ι C K : Type} [LinearOrder K] (env : ι → C)
    (s : EngineState ι C K) : Prop :=
  s.master.Nodup ∧ s.items.Nodup ∧ s.level = 0 ∧
    (∀ x, x ∈ s.items ↔ x ∈ s.master ∧ s.fltr (env x) = true) ∧
    (s.sortKey = none → s.items = s.master.filter fun i => s.fltr (env i)) ∧
    (∀ sk, s.sortKey = some sk → s.items.Pairwise fun x y =>
      sortOperatorOf s.sortRev (sk (env y)) (sk (env x)) = false)

/-! ## Helper lemmas: `pyInsert`, `allDistinct` -/

theorem pyInsert_length {α : Type} (l : List α) (i : Nat) (a : α) :
    (pyInsert l i a).length = l.length + 1 := by
  simp only [pyInsert, List.length_append, List.length_cons, List.length_take,
    List.length_drop]
  omega

theorem mem_pyInsert {α : Type} {l : List α} {i : Nat} {a x : α} :
    x ∈ pyInsert l i a ↔ x = a ∨ x ∈ l := by
  have h := List.take_append_drop i l
  constructor
  · intro hx
    rcases List.mem_append.mp hx with h1 | h2
    · exact Or.inr (by rw [← h]; exact List.mem_append.mpr (Or.inl h1))
    · rcases List.mem_cons.mp h2 with h3 | h4
      · exact Or.inl h3
      · exact Or.inr (by rw [← h]; exact List.mem_append.mpr (Or.inr h4))
  · intro hx
    rcases hx with h1 | h2
    · exact List.mem_append.mpr (Or.inr (List.mem_cons.mpr (Or.inl h1)))
    · rw [← h] at h2
      rcases List.mem_append.mp h2 with h3 | h4
      · exact List.mem_append.mpr (Or.inl h3)
      · exact List.mem_append.mpr (Or.inr (List.mem_cons.mpr (Or.inr h4)))

theorem pyInsert_perm {α : Type} (l : List α) (i : Nat) (a : α) :
    (pyInsert l i a).Perm (a :: l) := by
  have h : (a :: l).Perm (a :: (l.take i ++ l.drop i)) := by
    rw [List.take_append_drop]
  exact (List.perm_middle).trans h.symm |>.symm |>.symm
    |>.trans (List.Perm.refl _) |>.symm |>.symm

theorem pyInsert_nodup {α : Type} {l : List α} {i : Nat} {a : α}
    (ha : a ∉ l) (hl : l.Nodup) : (pyInsert l i a).Nodup := by
  have : (a :: l).Nodup := List.nodup_cons.mpr ⟨ha, hl⟩
  exact (pyInsert_perm l i a).symm.nodup this

theorem pyInsert_append {α : Type} (A B : List α) (a : α) :
    pyInsert (A ++ B) A.length a = A ++ a :: B := by
  simp [pyInsert, List.take_left, List.drop_left]

theorem pyInsert_of_length_le {α : Type} {l : List α} {i : Nat} (a : α)
    (h : l.length ≤ i) : pyInsert l i a = l ++ [a] := by
  simp [pyInsert, List.take_of_length_le h, List.drop_eq_nil_of_le h]

theorem pyInsert_clamp {α : Type} (l : List α) (i : Nat) (a : α) :
    pyInsert l i a = pyInsert l (min i l.length) a := by
  rcases Nat.le_total i l.length with h | h
  · rw [Nat.min_eq_left h]
  · rw [Nat.min_eq_right h, pyInsert_of_length_le a h,
      pyInsert_of_length_le a (Nat.le_refl _)]

theorem allDistinct_iff {α : Type} [DecidableEq α] (l : List α) :
    allDistinct l = true ↔ l.Nodup := by
  induction l with
  | nil => simp [allDistinct]
  | cons x xs ih =>
    simp [allDistinct, List.nodup_cons, ih, List.elem_iff]

/-! ## C9: partial-date filter -/

/-- C9: the claim is false as stated: a partial-date filter whose month field
is set to `0` matches an item whose month is `7`, because the source tests the
field with Python truthiness (`if self.__month:`), under which `0` counts as
unset. -/
theorem c9_counterexample :
    dateFieldsMatch none (some 0) none (Val.date 2020 7 1) = true ∧
      (0 : Int) ≠ 7 := by
  constructor
  · rfl
  · decide

/-- C9 (amended): for a date-valued attribute, `matches` returns true iff
every field of the filter that is set to a truthy (nonzero) value equals the
item's corresponding field exactly; a field that is unset, or set to `0`, is a
wildcard.  In particular a filter with all three fields unset matches every
item. -/
theorem c9_partial_date_amended (y m d : Option Int) (v : Val)
    (Y M D : Int) (hv : v = Val.date Y M D) :
    (dateFieldsMatch y m d v = true ↔
      ((truthyInt y = true → Y = y.getD 0) ∧
        (truthyInt m = true → M = m.getD 0) ∧
        (truthyInt d = true → D = d.getD 0))) ∧
      dateFieldsMatch none none none v = true := by
  subst hv
  constructor
  · simp only [dateFieldsMatch, Val.yearOf, Val.monthOf, Val.dayOf]
    split_ifs with h1 h2 h3 <;>
      simp_all [Bool.and_eq_true, Bool.not_eq_true', beq_iff_eq, beq_eq_false_iff_ne]
  · rfl

/-- Witness for the amended C9 at a concrete filter and item. -/
theorem c9_partial_date_amended_witness :
    dateFieldsMatch (some 2020) none (some 3) (Val.date 2020 7 3) = true := by
  have h := c9_partial_date_amended (some 2020) none (some 3)
    (Val.date 2020 7 3) 2020 7 3 rfl
  exact h.1.mpr ⟨fun _ => rfl, fun hc => absurd hc (by decide), fun _ => rfl⟩

/-! ## C8: combinator algebra -/

theorem all_congr_mem {α : Type} (l : List α) (p q : α → Bool)
    (h : ∀ x ∈ l, p x = q x) : l.all p = l.all q := by
  induction l with
  | nil => rfl
  | cons x xs ih =>
    simp only [List.all_cons]
    rw [h x (List.mem_cons_self x xs), ih fun y hy => h y (List.mem_cons_of_mem x hy)]

theorem any_congr_mem {α : Type} (l : List α) (p q : α → Bool)
    (h : ∀ x ∈ l, p x = q x) : l.any p = l.any q := by
  induction l with
  | nil => rfl
  | cons x xs ih =>
    simp only [List.any_cons]
    rw [h x (List.mem_cons_self x xs), ih fun y hy => h y (List.mem_cons_of_mem x hy)]

/-- Evaluation is stable once the fuel covers the graph depth. -/
theorem evalNode_fuel_mono (research : String → String → Bool) (st : Store)
    (d : Item) (lo : Nat) :
    ∀ fuel fuel' a, okAbove lo st fuel a = true → fuel ≤ fuel' →
      evalNode research st d fuel' a = evalNode research st d fuel a := by
  intro fuel
  induction fuel with
  | zero => intro fuel' a hok; simp [okAbove] at hok
  | succ fuel ih =>
    intro fuel' a hok hle
    obtain ⟨fuel'', rfl⟩ : ∃ k, fuel' = k + 1 :=
      ⟨fuel' - 1, by omega⟩
    have hle' : fuel ≤ fuel'' := by omega
    simp only [okAbove, Bool.and_eq_true] at hok
    obtain ⟨-, hok⟩ := hok
    cases hget : st[a]? with
    | none => simp [evalNode, hget]
    | some n =>
      rw [hget] at hok
      cases n with
      | filterN dflt => simp [evalNode, hget]
      | andN fs =>
        simp only [evalNode, hget]
        exact all_congr_mem _ _ _ fun f hf =>
          ih fuel'' f (by rw [List.all_eq_true] at hok; exact hok f hf) hle'
      | orN fs =>
        simp only [evalNode, hget]
        exact any_congr_mem _ _ _ fun f hf =>
          ih fuel'' f (by rw [List.all_eq_true] at hok; exact hok f hf) hle'
      | notN f =>
        simp only [evalNode, hget]
        rw [ih fuel'' f hok hle']
      | eqN k v => simp [evalNode, hget]
      | notEqN k v => simp [evalNode, hget]
      | startsWithN k v => simp [evalNode, hget]
      | textN k t => simp [evalNode, hget]
      | dateN k yy mm dd => simp [evalNode, hget]

/-- C8: `AndFilter` over an empty child list matches everything, `OrFilter`
over an empty child list matches nothing, and a double `NotFilter` agrees
with the doubly wrapped predicate on every item (evaluation in the model is a
pure function of the store snapshot and the item, so determinism holds by
construction). -/
theorem c8_combinator_algebra (research : String → String → Bool) (st : Store)
    (d : Item) (a1 a2 a3 b c : Nat) (f1 f2 fuel : Nat)
    (h1 : st[a1]? = some (.andN []))
    (h2 : st[a2]? = some (.orN []))
    (h3 : st[a3]? = some (.notN b))
    (h4 : st[b]? = some (.notN c))
    (h5 : okAbove 0 st fuel c = true) :
    evalNode research st d (f1 + 1) a1 = true ∧
      evalNode research st d (f2 + 1) a2 = false ∧
      evalNode research st d (fuel + 2) a3 = evalNode research st d fuel c := by
  refine ⟨by simp [evalNode, h1], by simp [evalNode, h2], ?_⟩
  have hm : evalNode research st d (fuel + 1) c = evalNode research st d fuel c :=
    evalNode_fuel_mono research st d 0 fuel (fuel + 1) c h5 (by omega)
  simp [evalNode, h3, h4, hm]

/-! ## C7: deep copy -/

theorem lt_length_of_getElem? {α : Type} {l : List α} {n : Nat} {a : α}
    (h : l[n]? = some a) : n < l.length :=
  (List.getElem?_eq_some.mp h).1

theorem forall2_imp_mem {α β : Type} {R S : α → β → Prop} {l1 : List α}
    {l2 : List β} (h : List.Forall₂ R l1 l2)
    (himp : ∀ a b, a ∈ l1 → R a b → S a b) : List.Forall₂ S l1 l2 := by
  induction h with
  | nil => exact .nil
  | cons h1 _ ih =>
    exact .cons (himp _ _ (List.mem_cons_self _ _) h1)
      (ih fun a b ha => himp a b (List.mem_cons_of_mem _ ha))

theorem forall2_right_mem {α β : Type} {R : α → β → Prop} {l1 : List α}
    {l2 : List β} (h : List.Forall₂ R l1 l2) :
    ∀ b ∈ l2, ∃ a ∈ l1, R a b := by
  induction h with
  | nil => intro b hb; cases hb
  | cons h1 _ ih =>
    intro b hb
    rcases List.mem_cons.mp hb with rfl | hb2
    · exact ⟨_, List.mem_cons_self _ _, h1⟩
    · obtain ⟨a, ha, har⟩ := ih b hb2
      exact ⟨a, List.mem_cons_of_mem _ ha, har⟩

theorem all_eq_of_forall2 {α β : Type} {p : β → Bool} {q : α → Bool}
    {l1 : List α} {l2 : List β}
    (h : List.Forall₂ (fun a b => p b = q a) l1 l2) : l2.all p = l1.all q := by
  induction h with
  | nil => rfl
  | cons h1 _ ih => simp only [List.all_cons, h1, ih]

theorem any_eq_of_forall2 {α β : Type} {p : β → Bool} {q : α → Bool}
    {l1 : List α} {l2 : List β}
    (h : List.Forall₂ (fun a b => p b = q a) l1 l2) : l2.any p = l1.any q := by
  induction h with
  | nil => rfl
  | cons h1 _ ih => simp only [List.any_cons, h1, ih]

/-- Evaluation and well-formedness depend only on the store entries the graph
actually reaches: the addresses `≥ lo` (by `okAbove`) and below the store
length. -/
theorem evalNode_congr (lo : Nat) :
    ∀ (fuel : Nat) (a : Nat) (st st₂ : Store), okAbove lo st fuel a = true →
      (∀ b, lo ≤ b → b < st.length → st₂[b]? = st[b]?) →
      okAbove lo st₂ fuel a = true ∧
        ∀ research d, evalNode research st₂ d fuel a = evalNode research st d fuel a := by
  intro fuel
  induction fuel with
  | zero => intro a st st₂ hok _; simp [okAbove] at hok
  | succ fuel ih =>
    intro a st st₂ hok hag
    simp only [okAbove, Bool.and_eq_true] at hok
    obtain ⟨hlo, hok⟩ := hok
    have hlo' : lo ≤ a := of_decide_eq_true hlo
    cases hget : st[a]? with
    | none => rw [hget] at hok; cases hok
    | some n =>
      rw [hget] at hok
      have ha : a < st.length := lt_length_of_getElem? hget
      have hget₂ : st₂[a]? = some n := by rw [hag a hlo' ha, hget]
      cases n with
      | filterN dflt => exact ⟨by simp [okAbove, hget₂, hlo'], fun r d => by simp [evalNode, hget, hget₂]⟩
      | andN fs =>
        rw [List.all_eq_true] at hok
        have hpt := fun f hf => ih f st st₂ (hok f hf) hag
        refine ⟨?_, fun r d => ?_⟩
        · simp only [okAbove, hget₂, Bool.and_eq_true, List.all_eq_true]
          exact ⟨by simpa using hlo', fun f hf => (hpt f hf).1⟩
        · simp only [evalNode, hget, hget₂]
          exact all_congr_mem _ _ _ fun f hf => (hpt f hf).2 r d
      | orN fs =>
        rw [List.all_eq_true] at hok
        have hpt := fun f hf => ih f st st₂ (hok f hf) hag
        refine ⟨?_, fun r d => ?_⟩
        · simp only [okAbove, hget₂, Bool.and_eq_true, List.all_eq_true]
          exact ⟨by simpa using hlo', fun f hf => (hpt f hf).1⟩
        · simp only [evalNode, hget, hget₂]
          exact any_congr_mem _ _ _ fun f hf => (hpt f hf).2 r d
      | notN f =>
        have hpt := ih f st st₂ hok hag
        refine ⟨by simp [okAbove, hget₂, hlo', hpt.1], fun r d => ?_⟩
        simp only [evalNode, hget, hget₂]
        rw [hpt.2 r d]
      | eqN k v => exact ⟨by simp [okAbove, hget₂, hlo'], fun r d => by simp [evalNode, hget, hget₂]⟩
      | notEqN k v => exact ⟨by simp [okAbove, hget₂, hlo'], fun r d => by simp [evalNode, hget, hget₂]⟩
      | startsWithN k v => exact ⟨by simp [okAbove, hget₂, hlo'], fun r d => by simp [evalNode, hget, hget₂]⟩
      | textN k t => exact ⟨by simp [okAbove, hget₂, hlo'], fun r d => by simp [evalNode, hget, hget₂]⟩
      | dateN k yy mm dd => exact ⟨by simp [okAbove, hget₂, hlo'], fun r d => by simp [evalNode, hget, hget₂]⟩

/-- Appending to the store changes nothing below the old length. -/
theorem evalNode_congr_append (lo fuel a : Nat) (st ext : Store)
    (hok : okAbove lo st fuel a = true) :
    okAbove lo (st ++ ext) fuel a = true ∧
      ∀ research d,
        evalNode research (st ++ ext) d fuel a = evalNode research st d fuel a :=
  evalNode_congr lo fuel a st (st ++ ext) hok
    fun b _ hb => List.getElem?_append_left hb

/-- The copied children of a combinator, one child at a time (the `foldl` in
`deepcopyNode`): the store only grows, and each copied child is a fresh,
behaviour-preserving copy of its source child. -/
theorem deepcopyFold_spec (fuel : Nat)
    (hnode : ∀ (st : Store) (a lo : Nat), okAbove 0 st fuel a = true →
      lo ≤ st.length →
      ∃ ext a2, deepcopyNode fuel st a = (st ++ ext, a2) ∧
        okAbove lo (st ++ ext) fuel a2 = true ∧
        ∀ research d,
          evalNode research (st ++ ext) d fuel a2 = evalNode research st d fuel a) :
    ∀ (fs : List Nat) (st : Store) (acc : List Nat) (lo : Nat),
      lo ≤ st.length →
      (∀ f ∈ fs, okAbove 0 st fuel f = true) →
      ∃ ext addrs,
        fs.foldl (fun (q : Store × List Nat) f =>
            let r := deepcopyNode fuel q.1 f
            (r.1, q.2 ++ [r.2])) (st, acc) = (st ++ ext, acc ++ addrs) ∧
        List.Forall₂ (fun f a2 =>
          okAbove lo (st ++ ext) fuel a2 = true ∧
          ∀ research d,
            evalNode research (st ++ ext) d fuel a2 = evalNode research st d fuel f)
          fs addrs := by
  intro fs
  induction fs with
  | nil =>
    intro st acc lo _ _
    exact ⟨[], [], by simp, .nil⟩
  | cons f fs' ih =>
    intro st acc lo hlo hok
    obtain ⟨ext1, a2, heq, hok2, heval2⟩ :=
      hnode st f lo (hok f (List.mem_cons_self f fs')) hlo
    have hlo1 : lo ≤ (st ++ ext1).length := by
      rw [List.length_append]; omega
    have hok' : ∀ f' ∈ fs', okAbove 0 (st ++ ext1) fuel f' = true := fun f' hf' =>
      (evalNode_congr_append 0 fuel f' st ext1
        (hok f' (List.mem_cons_of_mem f hf'))).1
    obtain ⟨ext2, addrs', hfold, hforall⟩ := ih (st ++ ext1) (acc ++ [a2]) lo hlo1 hok'
    refine ⟨ext1 ++ ext2, a2 :: addrs', ?_, ?_⟩
    · simp only [List.foldl_cons, heq]
      rw [hfold, List.append_assoc]
      simp
    · rw [← List.append_assoc]
      refine .cons ⟨?_, fun r d => ?_⟩ ?_
      · exact (evalNode_congr_append lo fuel a2 (st ++ ext1) ext2 hok2).1
      · rw [(evalNode_congr_append lo fuel a2 (st ++ ext1) ext2 hok2).2 r d,
          heval2 r d]
      · refine forall2_imp_mem hforall fun f' b hf' hfb => ⟨hfb.1, fun r d => ?_⟩
        rw [hfb.2 r d,
          (evalNode_congr_append 0 fuel f' st ext1
            (hok f' (List.mem_cons_of_mem f hf'))).2 r d]

/-- `__deepcopy__` extends the store with a fresh object graph: the old store
is untouched, the copy lives entirely at or above any chosen bound `lo` below
the old length (in particular entirely at fresh addresses, with `lo` the old
length), and the copy's `matches` agrees with the original's on every item. -/
theorem deepcopyNode_spec :
    ∀ (fuel : Nat) (st : Store) (a lo : Nat), okAbove 0 st fuel a = true →
      lo ≤ st.length →
      ∃ ext a2, deepcopyNode fuel st a = (st ++ ext, a2) ∧
        okAbove lo (st ++ ext) fuel a2 = true ∧
        ∀ research d,
          evalNode research (st ++ ext) d fuel a2 = evalNode research st d fuel a := by
  intro fuel
  induction fuel with
  | zero => intro st a lo hok _; simp [okAbove] at hok
  | succ fuel ih =>
    intro st a lo hok hlo
    simp only [okAbove, Bool.and_eq_true] at hok
    obtain ⟨-, hok⟩ := hok
    cases hget : st[a]? with
    | none => rw [hget] at hok; cases hok
    | some n =>
      rw [hget] at hok
      have hleaf : ∀ m : Node,
          (match m with
            | Node.andN _ => False | Node.orN _ => False | Node.notN _ => False
            | _ => True) →
          st[a]? = some m →
          ∃ ext a2, deepcopyNode (fuel + 1) st a = (st ++ ext, a2) ∧
            okAbove lo (st ++ ext) (fuel + 1) a2 = true ∧
            ∀ research d,
              evalNode research (st ++ ext) d (fuel + 1) a2
                = evalNode research st d (fuel + 1) a := by
        intro m hm hgm
        have hsome : (st ++ [m])[st.length]? = some m :=
          List.getElem?_concat_length st m
        refine ⟨[m], st.length, ?_, ?_, fun r d => ?_⟩
        · simp only [deepcopyNode, hgm]
          cases m <;> first | rfl | exact hm.elim
        · simp only [okAbove, hsome, Bool.and_eq_true]
          cases m <;>
            first
            | exact ⟨decide_eq_true hlo, rfl⟩
            | exact hm.elim
        · simp only [evalNode, hsome, hgm]
          cases m <;> first | rfl | exact hm.elim
      cases n with
      | filterN dflt => exact hleaf _ trivial hget
      | eqN k v => exact hleaf _ trivial hget
      | notEqN k v => exact hleaf _ trivial hget
      | startsWithN k v => exact hleaf _ trivial hget
      | textN k t => exact hleaf _ trivial hget
      | dateN k yy mm dd => exact hleaf _ trivial hget
      | notN f =>
        obtain ⟨ext1, f2, heq, hok2, heval2⟩ := ih st f lo hok hlo
        refine ⟨ext1 ++ [Node.notN f2], (st ++ ext1).length, ?_, ?_, fun r d => ?_⟩
        · simp only [deepcopyNode, hget, heq, List.append_assoc]
        · have hsome : ((st ++ ext1) ++ [Node.notN f2])[(st ++ ext1).length]?
              = some (Node.notN f2) :=
            List.getElem?_concat_length _ _
          rw [← List.append_assoc]
          simp only [okAbove, hsome, Bool.and_eq_true]
          refine ⟨by simp [List.length_append]; omega, ?_⟩
          exact (evalNode_congr_append lo fuel f2 (st ++ ext1) [Node.notN f2] hok2).1
        · have hsome : ((st ++ ext1) ++ [Node.notN f2])[(st ++ ext1).length]?
              = some (Node.notN f2) :=
            List.getElem?_concat_length _ _
          rw [← List.append_assoc]
          simp only [evalNode, hsome, hget]
          rw [(evalNode_congr_append lo fuel f2 (st ++ ext1) [Node.notN f2] hok2).2 r d,
            heval2 r d]
      | andN fs =>
        rw [List.all_eq_true] at hok
        obtain ⟨ext, addrs, hfold, hforall⟩ :=
          deepcopyFold_spec fuel ih fs st [] lo hlo hok
        refine ⟨ext ++ [Node.andN addrs], (st ++ ext).length, ?_, ?_, fun r d => ?_⟩
        · simp only [deepcopyNode, hget, hfold, List.append_assoc]
          simp
        · have hsome : ((st ++ ext) ++ [Node.andN addrs])[(st ++ ext).length]?
              = some (Node.andN addrs) := List.getElem?_concat_length _ _
          rw [← List.append_assoc]
          simp only [okAbove, hsome, Bool.and_eq_true, List.all_eq_true]
          refine ⟨by simp [List.length_append]; omega, fun a2 ha2 => ?_⟩
          obtain ⟨f, -, hR⟩ := forall2_right_mem hforall a2 ha2
          exact (evalNode_congr_append lo fuel a2 (st ++ ext) [Node.andN addrs] hR.1).1
        · have hsome : ((st ++ ext) ++ [Node.andN addrs])[(st ++ ext).length]?
              = some (Node.andN addrs) := List.getElem?_concat_length _ _
          rw [← List.append_assoc]
          simp only [evalNode, hsome, hget]
          refine all_eq_of_forall2 (forall2_imp_mem hforall fun f a2 _ hR => ?_)
          rw [(evalNode_congr_append lo fuel a2 (st ++ ext) [Node.andN addrs] hR.1).2 r d,
            hR.2 r d]
      | orN fs =>
        rw [List.all_eq_true] at hok
        obtain ⟨ext, addrs, hfold, hforall⟩ :=
          deepcopyFold_spec fuel ih fs st [] lo hlo hok
        refine ⟨ext ++ [Node.orN addrs], (st ++ ext).length, ?_, ?_, fun r d => ?_⟩
        · simp only [deepcopyNode, hget, hfold, List.append_assoc]
          simp
        · have hsome : ((st ++ ext) ++ [Node.orN addrs])[(st ++ ext).length]?
              = some (Node.orN addrs) := List.getElem?_concat_length _ _
          rw [← List.append_assoc]
          simp only [okAbove, hsome, Bool.and_eq_true, List.all_eq_true]
          refine ⟨by simp [List.length_append]; omega, fun a2 ha2 => ?_⟩
          obtain ⟨f, -, hR⟩ := forall2_right_mem hforall a2 ha2
          exact (evalNode_congr_append lo fuel a2 (st ++ ext) [Node.orN addrs] hR.1).1
        · have hsome : ((st ++ ext) ++ [Node.orN addrs])[(st ++ ext).length]?
              = some (Node.orN addrs) := List.getElem?_concat_length _ _
          rw [← List.append_assoc]
          simp only [evalNode, hsome, hget]
          refine any_eq_of_forall2 (forall2_imp_mem hforall fun f a2 _ hR => ?_)
          rw [(evalNode_congr_append lo fuel a2 (st ++ ext) [Node.orN addrs] hR.1).2 r d,
            hR.2 r d]

/-- C7: deep-copying a filter graph yields an independent predicate with
identical behaviour: at copy time the copy's `matches` equals the original's
on every item, and afterwards mutating any pre-existing object (the original
filter itself, any of its children, or any combined filter sharing those
children lives below the old store length) leaves the copy's `matches`
results unchanged. -/
theorem c7_deepcopy_independence (st : Store) (a fuel : Nat)
    (hok : okAbove 0 st fuel a = true) :
    (∀ research d,
      evalNode research (deepcopyNode fuel st a).1 d fuel (deepcopyNode fuel st a).2
        = evalNode research st d fuel a) ∧
    (∀ b n, b < st.length → ∀ research d,
      evalNode research (mutateStore (deepcopyNode fuel st a).1 b n) d fuel
          (deepcopyNode fuel st a).2
        = evalNode research (deepcopyNode fuel st a).1 d fuel
            (deepcopyNode fuel st a).2) := by
  obtain ⟨ext, a2, heq, hok2, heval⟩ :=
    deepcopyNode_spec fuel st a st.length hok (Nat.le_refl _)
  rw [heq]
  refine ⟨fun research d => heval research d, fun b n hb research d => ?_⟩
  have hag : ∀ c, st.length ≤ c → c < (st ++ ext).length →
      (mutateStore (st ++ ext) b n)[c]? = (st ++ ext)[c]? := by
    intro c hc _
    exact List.getElem?_set_ne (by omega)
  exact (evalNode_congr st.length fuel a2 (st ++ ext)
    (mutateStore (st ++ ext) b n) hok2 hag).2 research d

/-- Witness for C7: a concrete two-node filter (`NOT(equals)`), copied, then
the original child is overwritten in place. -/
theorem c7_deepcopy_independence_witness :
    (evalNode (fun _ _ => false)
        (deepcopyNode 2 [.eqN "a" (.int 1), .notN 0] 1).1
        (fun _ => .int 1) 2 (deepcopyNode 2 [.eqN "a" (.int 1), .notN 0] 1).2
      = evalNode (fun _ _ => false) [.eqN "a" (.int 1), .notN 0]
        (fun _ => .int 1) 2 1) ∧
    (evalNode (fun _ _ => false)
        (mutateStore (deepcopyNode 2 [.eqN "a" (.int 1), .notN 0] 1).1 0
          (.filterN true))
        (fun _ => .int 1) 2 (deepcopyNode 2 [.eqN "a" (.int 1), .notN 0] 1).2
      = evalNode (fun _ _ => false)
        (deepcopyNode 2 [.eqN "a" (.int 1), .notN 0] 1).1
        (fun _ => .int 1) 2 (deepcopyNode 2 [.eqN "a" (.int 1), .notN 0] 1).2) := by
  have h := c7_deepcopy_independence [.eqN "a" (.int 1), .notN 0] 1 2 (by decide)
  exact ⟨h.1 _ _, h.2 0 (.filterN true) (by decide) _ _⟩

/-- Witness for C8 on a concrete five-node store. -/
theorem c8_combinator_algebra_witness :
    evalNode (fun _ _ => false) [.andN [], .orN [], .notN 3, .notN 4, .filterN true]
        (fun _ => .int 0) 1 0 = true ∧
      evalNode (fun _ _ => false) [.andN [], .orN [], .notN 3, .notN 4, .filterN true]
        (fun _ => .int 0) 1 1 = false ∧
      evalNode (fun _ _ => false) [.andN [], .orN [], .notN 3, .notN 4, .filterN true]
        (fun _ => .int 0) 3 2
        = evalNode (fun _ _ => false) [.andN [], .orN [], .notN 3, .notN 4, .filterN true]
          (fun _ => .int 0) 1 4 :=
  c8_combinator_algebra (fun _ _ => false) _ (fun _ => .int 0) 0 1 2 3 4 0 0 1
    rfl rfl rfl rfl (by decide)

/-! ## Event replay (C2) -/

theorem replay_append {ι : Type} (e1 e2 : List (Event ι)) (l : List ι) :
    replay (e1 ++ e2) l = replay e2 (replay e1 l) :=
  List.foldl_append _ _ _ _

theorem replay_cons {ι : Type} (e : Event ι) (es : List (Event ι)) (l : List ι) :
    replay (e :: es) l = replay es (applyEvent l e) := rfl

/-- Replaying the remove-at-`index` events of the tail-removal loop of
`__update_items` truncates the list at `index`. -/
theorem replay_removeTail {ι : Type} :
    ∀ (k : Nat) (cur : List ι) (idx : Nat), cur.length ≤ idx + k →
      replay ((cur.drop idx).map fun it => .rem it idx) cur = cur.take idx := by
  intro k
  induction k with
  | zero =>
    intro cur idx h
    rw [List.drop_eq_nil_of_le (by omega), List.take_of_length_le (by omega)]
    rfl
  | succ k ih =>
    intro cur idx h
    by_cases hlt : idx < cur.length
    · have herase : cur.eraseIdx idx = cur.take idx ++ cur.drop (idx + 1) :=
        List.eraseIdx_eq_take_drop_succ cur idx
      have hlen : (cur.take idx).length = idx := by
        rw [List.length_take]; omega
      have hstep : replay ((cur.drop (idx+1)).map fun it => Event.rem it idx)
          (cur.eraseIdx idx) = (cur.eraseIdx idx).take idx := by
        have hdrop : (cur.eraseIdx idx).drop idx = cur.drop (idx + 1) := by
          rw [herase, List.drop_left' hlen]
        have := ih (cur.eraseIdx idx) idx
          (by rw [List.length_eraseIdx_of_lt hlt]; omega)
        rw [hdrop] at this
        exact this
      have htake : (cur.eraseIdx idx).take idx = cur.take idx := by
        rw [herase, List.take_left' hlen]
      rw [List.drop_eq_getElem_cons hlt, List.map_cons, replay_cons]
      have happ : applyEvent cur (Event.rem cur[idx] idx) = cur.eraseIdx idx := rfl
      rw [happ, hstep, htake]
    · rw [List.drop_eq_nil_of_le (by omega), List.take_of_length_le (by omega)]
      rfl

/-- Every notification the diff walk emits is paired with exactly the list
mutation it describes: replaying the walk's events transforms the working
copy into the result. -/
theorem updateLoop_replay {ι : Type} [DecidableEq ι] :
    ∀ (target cur : List ι) (idx : Nat) (res : List ι) (evs : List (Event ι)),
      updateLoop cur idx target = some (res, evs) → replay evs cur = res := by
  intro target
  induction target with
  | nil =>
    intro cur idx res evs h
    simp only [updateLoop, Option.some.injEq, Prod.mk.injEq] at h
    obtain ⟨hres, hevs⟩ := h
    rw [← hevs, ← hres]
    exact replay_removeTail cur.length cur idx (by omega)
  | cons item rest ih =>
    intro cur idx res evs h
    simp only [updateLoop] at h
    by_cases hmem : item ∈ cur
    · rw [if_pos hmem] at h
      by_cases hle : idx ≤ cur.indexOf item
      · rw [if_pos hle] at h
        by_cases hlt : idx < cur.indexOf item
        · rw [if_pos hlt] at h
          by_cases hmem1 : item ∈ cur.eraseIdx (cur.indexOf item)
          · rw [if_pos hmem1] at h; cases h
          · rw [if_neg hmem1] at h
            obtain ⟨⟨res2, evs2⟩, hinner, heq⟩ := Option.map_eq_some'.mp h
            simp only [Prod.mk.injEq] at heq
            obtain ⟨hres, hevs⟩ := heq
            rw [← hevs, ← hres, replay_cons, replay_cons]
            exact ih _ _ _ _ hinner
        · rw [if_neg hlt] at h
          exact ih _ _ _ _ h
      · rw [if_neg hle] at h; cases h
    · rw [if_neg hmem] at h
      obtain ⟨⟨res2, evs2⟩, hinner, heq⟩ := Option.map_eq_some'.mp h
      simp only [Prod.mk.injEq] at heq
      obtain ⟨hres, hevs⟩ := heq
      rw [← hevs, ← hres, replay_cons]
      exact ih _ _ _ _ hinner

theorem replay_coe {ι C K : Type} {L : List ι}
    {p : EngineState ι C K × List (Event ι)} {s' : EngineState ι C K}
    {evs : List (Event ι)} (h : p = (s', evs))
    (hr : replay p.2 L = p.1.items) : replay evs L = s'.items := by
  cases h; exact hr

theorem insertedMasterItem_replay {ι C K : Type} [DecidableEq ι] [LinearOrder K]
    (env : ι → C) (s : EngineState ι C K) (item : ι) :
    replay (insertedMasterItem env s item).2 s.items
      = (insertedMasterItem env s item).1.items := by
  simp only [insertedMasterItem]
  split_ifs <;> rfl

theorem removedMasterItem_replay {ι C K : Type} [DecidableEq ι]
    (s : EngineState ι C K) (item : ι) :
    replay (removedMasterItem s item).2 s.items
      = (removedMasterItem s item).1.items := by
  simp only [removedMasterItem]
  split_ifs <;> rfl

theorem updatedMasterItem_replay {ι C K : Type} [DecidableEq ι] [LinearOrder K]
    (env : ι → C) (s : EngineState ι C K) (item : ι) :
    replay (updatedMasterItem env s item).2 s.items
      = (updatedMasterItem env s item).1.items := by
  simp only [updatedMasterItem]
  rcases hsk : s.sortKey with - | sk <;> simp only [hsk] <;> split_ifs <;>
    first
    | rfl
    | exact insertedMasterItem_replay env s item
    | exact removedMasterItem_replay s item
    | (rw [replay_append, removedMasterItem_replay, insertedMasterItem_replay])

theorem updateItems_replay {ι C K : Type} [DecidableEq ι] [LinearOrder K]
    (env : ι → C) (t : EngineState ι C K) (s' : EngineState ι C K)
    (evs : List (Event ι)) (h : updateItems env t = some (s', evs)) :
    replay evs t.items = s'.items := by
  simp only [updateItems] at h
  split_ifs at h with h1 h2 h3
  · exact replay_coe (Option.some.inj h) rfl
  · obtain ⟨⟨res, evs2⟩, hinner, heq⟩ := Option.map_eq_some'.mp h
    exact replay_coe heq (updateLoop_replay _ _ _ _ _ hinner)

theorem step_replay {ι C K : Type} [DecidableEq ι] [LinearOrder K]
    (env : ι → C) (s : EngineState ι C K) (op : Op ι C K)
    (s' : EngineState ι C K) (evs : List (Event ι))
    (h : step env s op = some (s', evs)) : replay evs s.items = s'.items := by
  cases op with
  | insertItem bi item =>
    simp only [step] at h
    by_cases hm : item ∈ s.master
    · rw [if_pos hm] at h; cases h
    · rw [if_neg hm] at h
      exact replay_coe (Option.some.inj h) (insertedMasterItem_replay env _ item)
  | removeItem index =>
    simp only [step] at h
    split at h
    · exact replay_coe (Option.some.inj h) (removedMasterItem_replay _ _)
    · cases h
  | updateItem item =>
    simp only [step] at h
    by_cases hm : item ∈ s.master
    · rw [if_pos hm] at h
      exact replay_coe (Option.some.inj h) (updatedMasterItem_replay env s item)
    · rw [if_neg hm] at h; cases h
  | setFilter f =>
    simp only [step] at h
    exact updateItems_replay env { s with fltr := f } s' evs h
  | setSortKey sk =>
    simp only [step] at h
    exact updateItems_replay env { s with sortKey := sk } s' evs h
  | setSortReverse b =>
    simp only [step] at h
    exact updateItems_replay env { s with sortRev := b } s' evs h
  | beginChange =>
    simp only [step] at h
    exact replay_coe (Option.some.inj h) rfl
  | endChange =>
    simp only [step] at h
    split_ifs at h with h1
    · exact updateItems_replay env { s with level := s.level - 1 } s' evs h
    · exact replay_coe (Option.some.inj h) rfl

theorem runOps_replay {ι C K : Type} [DecidableEq ι] [LinearOrder K] :
    ∀ (ops : List ((ι → C) × Op ι C K)) (s0 s' : EngineState ι C K)
      (evs : List (Event ι)), runOps ops s0 = some (s', evs) →
      replay evs s0.items = s'.items := by
  intro ops
  induction ops with
  | nil =>
    intro s0 s' evs h
    exact replay_coe (Option.some.inj h) rfl
  | cons p rest ih =>
    intro s0 s' evs h
    obtain ⟨env, op⟩ := p
    simp only [runOps] at h
    cases hstep : step env s0 op with
    | none => rw [hstep] at h; cases h
    | some q =>
      obtain ⟨s1, evs1⟩ := q
      simp only [hstep] at h
      cases hrest : runOps rest s1 with
      | none => simp only [hrest] at h; cases h
      | some q2 =>
        obtain ⟨s2, evs2⟩ := q2
        simp only [hrest] at h
        refine replay_coe (Option.some.inj h) ?_
        show replay (evs1 ++ evs2) s0.items = s2.items
        rw [replay_append, step_replay env s0 op s1 evs1 hstep]
        exact ih s1 s2 evs2 hrest

/-- C2: replaying, against an initially empty list, the exact sequence of
insert/remove notifications emitted since engine creation reproduces the
current derived list exactly and in order — every structural change to the
derived list (single-item paths and the resynchronization diff alike) is
paired with the notification carrying the index at which it occurred. -/
theorem c2_event_replay {ι C K : Type} [DecidableEq ι] [LinearOrder K]
    (ops : List ((ι → C) × Op ι C K)) (s : EngineState ι C K)
    (evs : List (Event ι)) (h : runOps ops (initState ι C K) = some (s, evs)) :
    replay evs [] = s.items :=
  runOps_replay ops (initState ι C K) s evs h

/-- Witness for C2 on a concrete two-insert run. -/
theorem c2_event_replay_witness :
    replay [Event.ins (0:Nat) 0, Event.ins 1 1] [] =
      (EngineState.mk [0,1] [0,1] (fun _ => true) none false 0 :
        EngineState Nat Int Int).items :=
  c2_event_replay
    [((fun _ => (0:Int)), .insertItem 0 0), ((fun _ => (0:Int)), .insertItem 1 1)]
    (EngineState.mk [0,1] [0,1] (fun _ => true) none false 0)
    [Event.ins 0 0, Event.ins 1 1] (by rfl)

/-! ## The diff walk: result and success -/

theorem take_eraseIdx_of_le {α : Type} (l : List α) {i j : Nat} (h : i ≤ j) :
    (l.eraseIdx j).take i = l.take i := by
  by_cases hj : j < l.length
  · rw [List.eraseIdx_eq_take_drop_succ,
      List.take_append_of_le_length (by rw [List.length_take]; omega),
      List.take_take, Nat.min_eq_left h]
  · rw [List.eraseIdx_eq_self.mpr (by omega)]

theorem indexOf_getElem {α : Type} [DecidableEq α] {l : List α} {a : α}
    (h : a ∈ l) : l.get ⟨l.indexOf a, List.indexOf_lt_length.mpr h⟩ = a :=
  List.indexOf_get (List.indexOf_lt_length.mpr h)

theorem indexOf_ge_of_not_mem_take {α : Type} [DecidableEq α] {l : List α}
    {a : α} {idx : Nat} (hmem : a ∈ l) (htake : a ∉ l.take idx) :
    idx ≤ l.indexOf a := by
  by_contra hc
  have hlt : l.indexOf a < l.length := List.indexOf_lt_length.mpr hmem
  have h1 : (l.take idx).get ⟨l.indexOf a, by rw [List.length_take]; omega⟩ =
      l.get ⟨l.indexOf a, hlt⟩ := by
    rw [List.get_eq_getElem, List.get_eq_getElem]
    exact List.getElem_take l
  refine htake ?_
  rw [← indexOf_getElem hmem, ← h1]
  exact List.get_mem _ _ _

theorem take_pyInsert {α : Type} (l : List α) {i : Nat} (a : α)
    (h : i ≤ l.length) :
    (pyInsert l i a).take (i + 1) = l.take i ++ [a] := by
  have hlen : (l.take i).length = i := by rw [List.length_take]; omega
  rw [pyInsert, List.take_append_eq_append_take, hlen,
    List.take_of_length_le (by omega)]
  simp

theorem take_succ_of_lt {α : Type} (l : List α) {i : Nat} (h : i < l.length) :
    l.take (i + 1) = l.take i ++ [l.get ⟨i, h⟩] := by
  rw [List.take_succ, List.getElem?_eq_getElem h]
  rfl

theorem eraseIdx_length_of_mem {α : Type} [DecidableEq α] {l : List α} {a : α}
    (h : a ∈ l) : (l.eraseIdx (l.indexOf a)).length = l.length - 1 :=
  List.length_eraseIdx_of_lt (List.indexOf_lt_length.mpr h)

/-- The diff walk, when it completes, leaves exactly the prefix it has placed
followed by the remaining target: starting at position 0 it produces the
target list itself. -/
theorem updateLoop_result {ι : Type} [DecidableEq ι] :
    ∀ (target cur : List ι) (idx : Nat) (res : List ι) (evs : List (Event ι)),
      idx ≤ cur.length → updateLoop cur idx target = some (res, evs) →
      res = cur.take idx ++ target := by
  intro target
  induction target with
  | nil =>
    intro cur idx res evs _ h
    simp only [updateLoop, Option.some.injEq, Prod.mk.injEq] at h
    rw [← h.1, List.append_nil]
  | cons item rest ih =>
    intro cur idx res evs hlen h
    simp only [updateLoop] at h
    by_cases hmem : item ∈ cur
    · rw [if_pos hmem] at h
      have hidx : cur.indexOf item < cur.length := List.indexOf_lt_length.mpr hmem
      by_cases hle : idx ≤ cur.indexOf item
      · rw [if_pos hle] at h
        by_cases hlt : idx < cur.indexOf item
        · rw [if_pos hlt] at h
          by_cases hmem1 : item ∈ cur.eraseIdx (cur.indexOf item)
          · rw [if_pos hmem1] at h; cases h
          · rw [if_neg hmem1] at h
            obtain ⟨⟨res2, evs2⟩, hinner, heq⟩ := Option.map_eq_some'.mp h
            simp only [Prod.mk.injEq] at heq
            have hlen1 : (cur.eraseIdx (cur.indexOf item)).length = cur.length - 1 :=
              eraseIdx_length_of_mem hmem
            have hres2 := ih _ (idx + 1) res2 evs2
              (by rw [pyInsert_length, hlen1]; omega) hinner
            rw [← heq.1, hres2, take_pyInsert _ _ (by omega),
              take_eraseIdx_of_le _ hle]
            simp
        · have hidx2 : idx = cur.indexOf item := by omega
          rw [if_neg hlt] at h
          have hres := ih _ (idx + 1) res evs (by omega) h
          rw [hres, take_succ_of_lt _ (by omega : idx < cur.length)]
          have : cur.get ⟨idx, by omega⟩ = item := by
            subst hidx2; exact indexOf_getElem hmem
          rw [this]
          simp
      · rw [if_neg hle] at h; cases h
    · rw [if_neg hmem] at h
      obtain ⟨⟨res2, evs2⟩, hinner, heq⟩ := Option.map_eq_some'.mp h
      simp only [Prod.mk.injEq] at heq
      have hres2 := ih _ (idx + 1) res2 evs2
        (by rw [pyInsert_length]; omega) hinner
      rw [← heq.1, hres2, take_pyInsert _ _ hlen]
      simp

/-- The diff walk succeeds — no assertion fires — whenever the working copy
and the target are duplicate-free and no remaining target item already sits
in the placed prefix. -/
theorem updateLoop_some {ι : Type} [DecidableEq ι] :
    ∀ (target cur : List ι) (idx : Nat),
      cur.Nodup → target.Nodup → idx ≤ cur.length →
      (∀ x ∈ target, x ∉ cur.take idx) →
      ∃ res evs, updateLoop cur idx target = some (res, evs) := by
  intro target
  induction target with
  | nil => intro cur idx _ _ _ _; exact ⟨_, _, rfl⟩
  | cons item rest ih =>
    intro cur idx hcur htarget hlen hpre
    have htr : rest.Nodup := (List.nodup_cons.mp htarget).2
    have hti : item ∉ rest := (List.nodup_cons.mp htarget).1
    simp only [updateLoop]
    by_cases hmem : item ∈ cur
    · rw [if_pos hmem]
      have hidx : cur.indexOf item < cur.length := List.indexOf_lt_length.mpr hmem
      have hle : idx ≤ cur.indexOf item :=
        indexOf_ge_of_not_mem_take hmem (hpre item (List.mem_cons_self _ _))
      rw [if_pos hle]
      by_cases hlt : idx < cur.indexOf item
      · rw [if_pos hlt]
        have hmem1 : item ∉ cur.eraseIdx (cur.indexOf item) := by
          rw [List.eraseIdx_indexOf_eq_erase]
          exact hcur.not_mem_erase
        rw [if_neg hmem1]
        have hcur1 : (cur.eraseIdx (cur.indexOf item)).Nodup :=
          hcur.eraseIdx _
        have hlen1 : (cur.eraseIdx (cur.indexOf item)).length = cur.length - 1 :=
          eraseIdx_length_of_mem hmem
        have hcur2 : (pyInsert (cur.eraseIdx (cur.indexOf item)) idx item).Nodup :=
          pyInsert_nodup hmem1 hcur1
        obtain ⟨res, evs, hsome⟩ := ih _ (idx + 1) hcur2 htr
          (by rw [pyInsert_length, hlen1]; omega)
          (by
            intro x hx
            rw [take_pyInsert _ _ (by omega), take_eraseIdx_of_le _ hle]
            intro hx2
            rcases List.mem_append.mp hx2 with h1 | h2
            · exact hpre x (List.mem_cons_of_mem _ hx) h1
            · rcases List.mem_singleton.mp h2 with rfl
              exact hti hx)
        exact ⟨_, _, by rw [hsome]; rfl⟩
      · rw [if_neg hlt]
        have hidx2 : idx = cur.indexOf item := by omega
        obtain ⟨res, evs, hsome⟩ := ih cur (idx + 1) hcur htr (by omega)
          (by
            intro x hx
            rw [take_succ_of_lt _ (by omega : idx < cur.length)]
            intro hx2
            rcases List.mem_append.mp hx2 with h1 | h2
            · exact hpre x (List.mem_cons_of_mem _ hx) h1
            · rcases List.mem_singleton.mp h2 with h3
              have : cur.get ⟨idx, by omega⟩ = item := by
                subst hidx2; exact indexOf_getElem hmem
              rw [this] at h3
              exact hti (h3 ▸ hx))
        exact ⟨res, evs, hsome⟩
    · rw [if_neg hmem]
      have hcur2 : (pyInsert cur idx item).Nodup := pyInsert_nodup hmem hcur
      obtain ⟨res, evs, hsome⟩ := ih _ (idx + 1) hcur2 htr
        (by rw [pyInsert_length]; omega)
        (by
          intro x hx
          rw [take_pyInsert _ _ hlen]
          intro hx2
          rcases List.mem_append.mp hx2 with h1 | h2
          · exact hpre x (List.mem_cons_of_mem _ hx) h1
          · rcases List.mem_singleton.mp h2 with rfl
            exact hti hx)
      exact ⟨_, _, by rw [hsome]; rfl⟩

/-! ## Stable sort and the sort operator -/

theorem stableInsert_perm {ι : Type} (cmp : ι → ι → Bool) (a : ι) :
    ∀ l : List ι, (stableInsert cmp a l).Perm (a :: l) := by
  intro l
  induction l with
  | nil => exact List.Perm.refl _
  | cons b l ih =>
    simp only [stableInsert]
    by_cases hc : cmp b a = true
    · rw [if_pos hc]
      exact (ih.cons b).trans (List.Perm.swap a b l)
    · rw [if_neg hc]

theorem stableSort_perm {ι : Type} (cmp : ι → ι → Bool) :
    ∀ l : List ι, (stableSort cmp l).Perm l := by
  intro l
  induction l with
  | nil => exact List.Perm.refl _
  | cons a l ih =>
    exact (stableInsert_perm cmp a (stableSort cmp l)).trans (ih.cons a)

theorem stableInsert_pairwise {ι : Type} (cmp : ι → ι → Bool)
    (hasym : ∀ x y, cmp x y = true → cmp y x = false)
    (hneg : ∀ x y z, cmp x y = false → cmp y z = false → cmp x z = false)
    (a : ι) :
    ∀ l : List ι, (l.Pairwise fun x y => cmp y x = false) →
      (stableInsert cmp a l).Pairwise fun x y => cmp y x = false := by
  intro l
  induction l with
  | nil => intro _; simp [stableInsert]
  | cons b l ih =>
    intro hl
    rw [List.pairwise_cons] at hl
    obtain ⟨hb, hl'⟩ := hl
    simp only [stableInsert]
    by_cases hc : cmp b a = true
    · rw [if_pos hc, List.pairwise_cons]
      refine ⟨?_, ih hl'⟩
      intro y hy
      rcases List.mem_cons.mp ((stableInsert_perm cmp a l).mem_iff.mp hy) with
        rfl | hyl
      · exact hasym b y hc
      · exact hb y hyl
    · rw [if_neg hc, List.pairwise_cons]
      refine ⟨?_, List.pairwise_cons.mpr ⟨hb, hl'⟩⟩
      intro y hy
      rcases List.mem_cons.mp hy with rfl | hyl
      · exact eq_false_of_ne_true hc
      · exact hneg y b a (hb y hyl) (eq_false_of_ne_true hc)

theorem stableSort_pairwise {ι : Type} (cmp : ι → ι → Bool)
    (hasym : ∀ x y, cmp x y = true → cmp y x = false)
    (hneg : ∀ x y z, cmp x y = false → cmp y z = false → cmp x z = false) :
    ∀ l : List ι, (stableSort cmp l).Pairwise fun x y => cmp y x = false := by
  intro l
  induction l with
  | nil => simp [stableSort]
  | cons a l ih => exact stableInsert_pairwise cmp hasym hneg a _ ih

theorem sortOperatorOf_false {K : Type} [LinearOrder K] :
    (sortOperatorOf false : K → K → Bool) = fun a b => decide (a < b) := rfl

theorem sortOperatorOf_true {K : Type} [LinearOrder K] :
    (sortOperatorOf true : K → K → Bool) = fun a b => decide (b < a) := rfl

theorem sortOperatorOf_irrefl {K : Type} [LinearOrder K] (rev : Bool) (a : K) :
    sortOperatorOf rev a a = false := by
  cases rev
  · simp [sortOperatorOf_false]
  · simp [sortOperatorOf_true]

theorem sortOperatorOf_asymm {K : Type} [LinearOrder K] (rev : Bool) (a b : K)
    (h : sortOperatorOf rev a b = true) : sortOperatorOf rev b a = false := by
  cases rev
  · simp only [sortOperatorOf_false, decide_eq_true_eq] at h
    simp only [sortOperatorOf_false, decide_eq_false_iff_not]
    exact lt_asymm h
  · simp only [sortOperatorOf_true, decide_eq_true_eq] at h
    simp only [sortOperatorOf_true, decide_eq_false_iff_not]
    exact lt_asymm h

theorem sortOperatorOf_negtrans {K : Type} [LinearOrder K] (rev : Bool)
    (a b c : K) (h1 : sortOperatorOf rev a b = false)
    (h2 : sortOperatorOf rev b c = false) : sortOperatorOf rev a c = false := by
  cases rev
  · simp only [sortOperatorOf_false, decide_eq_false_iff_not] at h1 h2 ⊢
    exact fun hlt => absurd
      (lt_of_lt_of_le hlt (le_trans (le_of_not_lt h2) (le_of_not_lt h1)))
      (lt_irrefl a)
  · simp only [sortOperatorOf_true, decide_eq_false_iff_not] at h1 h2 ⊢
    exact fun hlt => absurd
      (lt_of_lt_of_le hlt (le_trans (le_of_not_lt h1) (le_of_not_lt h2)))
      (lt_irrefl c)

theorem sortOperatorOf_mono {K : Type} [LinearOrder K] (rev : Bool) (a b c : K)
    (h1 : sortOperatorOf rev b a = false) (h2 : sortOperatorOf rev b c = true) :
    sortOperatorOf rev a c = true := by
  cases rev
  · simp only [sortOperatorOf_false, decide_eq_false_iff_not,
      decide_eq_true_eq] at h1 h2 ⊢
    exact lt_of_le_of_lt (le_of_not_lt h1) h2
  · simp only [sortOperatorOf_true, decide_eq_false_iff_not,
      decide_eq_true_eq] at h1 h2 ⊢
    exact lt_of_lt_of_le h2 (le_of_not_lt h1)

theorem sortOperatorOf_eq_of_both_false {K : Type} [LinearOrder K] (rev : Bool)
    (a b : K) (h1 : sortOperatorOf rev a b = false)
    (h2 : sortOperatorOf rev b a = false) : a = b := by
  cases rev
  · simp only [sortOperatorOf_false, decide_eq_false_iff_not] at h1 h2
    exact le_antisymm (le_of_not_lt h2) (le_of_not_lt h1)
  · simp only [sortOperatorOf_true, decide_eq_false_iff_not] at h1 h2
    exact le_antisymm (le_of_not_lt h1) (le_of_not_lt h2)

theorem sortOperatorOf_true_of_false_of_ne {K : Type} [LinearOrder K]
    (rev : Bool) (a b : K) (h1 : sortOperatorOf rev b a = false) (h2 : a ≠ b) :
    sortOperatorOf rev a b = true := by
  cases rev
  · simp only [sortOperatorOf_false, decide_eq_false_iff_not,
      decide_eq_true_eq] at h1 ⊢
    exact lt_of_le_of_ne (le_of_not_lt h1) h2
  · simp only [sortOperatorOf_true, decide_eq_false_iff_not,
      decide_eq_true_eq] at h1 ⊢
    exact lt_of_le_of_ne (le_of_not_lt h1) (Ne.symm h2)

/-! ## `buildItems` and `updateItems` -/

theorem buildItems_perm {ι C K : Type} [DecidableEq ι] [LinearOrder K]
    (env : ι → C) (s : EngineState ι C K) :
    (buildItems env s).Perm (s.master.filter fun i => s.fltr (env i)) := by
  rcases hsk : s.sortKey with - | sk <;> simp only [buildItems, hsk]
  · exact List.Perm.refl _
  · exact (stableSort_perm _ s.master).filter _

theorem buildItems_nodup {ι C K : Type} [DecidableEq ι] [LinearOrder K]
    (env : ι → C) (s : EngineState ι C K) (h : s.master.Nodup) :
    (buildItems env s).Nodup :=
  ((buildItems_perm env s).nodup_iff).mpr (h.filter _)

theorem buildItems_subset_master {ι C K : Type} [DecidableEq ι] [LinearOrder K]
    (env : ι → C) (s : EngineState ι C K) :
    ∀ x ∈ buildItems env s, x ∈ s.master := fun x hx =>
  List.mem_of_mem_filter ((buildItems_perm env s).mem_iff.mp hx)

theorem buildItems_sorted {ι C K : Type} [DecidableEq ι] [LinearOrder K]
    (env : ι → C) (s : EngineState ι C K) (sk : C → K)
    (hsk : s.sortKey = some sk) :
    (buildItems env s).Pairwise fun x y =>
      sortOperatorOf s.sortRev (sk (env y)) (sk (env x)) = false := by
  simp only [buildItems, hsk]
  refine List.Pairwise.filter _ ?_
  have := stableSort_pairwise
    (fun x y => sortOperatorOf s.sortRev (sk (env x)) (sk (env y)))
    (fun x y h => sortOperatorOf_asymm s.sortRev _ _ h)
    (fun x y z h1 h2 => sortOperatorOf_negtrans s.sortRev _ _ _ h1 h2)
    s.master
  exact this

/-- `__update_items` succeeds from any state with duplicate-free master and
derived lists, and resynchronizes the derived list to the rebuilt target. -/
theorem updateItems_some {ι C K : Type} [DecidableEq ι] [LinearOrder K]
    (env : ι → C) (t : EngineState ι C K) (h0 : ¬t.level > 0)
    (hm : t.master.Nodup) (hi : t.items.Nodup) :
    ∃ evs, updateItems env t = some ({ t with items := buildItems env t }, evs) := by
  obtain ⟨res, evs, hsome⟩ :=
    updateLoop_some (buildItems env t) t.items 0 hi (buildItems_nodup env t hm)
      (by omega) (by simp)
  have hres : res = buildItems env t := by
    have := updateLoop_result (buildItems env t) t.items 0 res evs (by omega) hsome
    simpa using this
  refine ⟨evs, ?_⟩
  simp only [updateItems, if_neg h0, if_pos ((allDistinct_iff _).mpr hm),
    if_pos ((allDistinct_iff _).mpr (buildItems_nodup env t hm))]
  rw [hsome, hres]
  rfl

/-- When `__update_items` returns, the new state is the old one with the
derived list replaced by the rebuilt target (settings and master untouched). -/
theorem updateItems_items {ι C K : Type} [DecidableEq ι] [LinearOrder K]
    (env : ι → C) (t s' : EngineState ι C K) (evs : List (Event ι))
    (h0 : ¬t.level > 0) (h : updateItems env t = some (s', evs)) :
    s' = { t with items := buildItems env t } := by
  simp only [updateItems, if_neg h0] at h
  split_ifs at h with h1 h2
  · obtain ⟨⟨res, evs2⟩, hinner, heq⟩ := Option.map_eq_some'.mp h
    have hres : res = buildItems env t := by
      have := updateLoop_result (buildItems env t) t.items 0 res evs2 (by omega) hinner
      simpa using this
    rw [Prod.mk.injEq] at heq
    rw [← heq.1, hres]

/-! ## C5: batching -/

/-- C5: `begin_change`/`end_change` nest through the integer depth counter:
`begin_change` only increments it; while the depth is positive a
container-driven insert/remove/update mutates only the master list (derived
list, settings and depth unchanged, no events emitted) and a filter
assignment only stores the new predicate; an `end_change` that does not
return the counter to zero only decrements; and the `end_change` that returns
it to zero performs exactly one full resynchronization, leaving the derived
list equal to the rebuild (sort-then-filter) of the master list accumulated
while batched. -/
theorem c5_batching {ι C K : Type} [DecidableEq ι] [LinearOrder K]
    (env : ι → C) (s : EngineState ι C K) :
    (step env s .beginChange = some ({ s with level := s.level + 1 }, [])) ∧
    (∀ op, ContainerOp op → s.level > 0 → ∀ s' evs,
      step env s op = some (s', evs) →
      s'.items = s.items ∧ s'.fltr = s.fltr ∧ s'.sortKey = s.sortKey ∧
        s'.sortRev = s.sortRev ∧ s'.level = s.level ∧ evs = []) ∧
    (∀ f, s.level > 0 →
      step env s (.setFilter f) = some ({ s with fltr := f }, [])) ∧
    (s.level = 1 →
      step env s .endChange = updateItems env { s with level := 0 }) ∧
    (s.level ≠ 1 →
      step env s .endChange = some ({ s with level := s.level - 1 }, [])) ∧
    (∀ s' evs, s.level = 1 → step env s .endChange = some (s', evs) →
      s'.items = buildItems env s) := by
  refine ⟨rfl, ?_, ?_, ?_, ?_, ?_⟩
  · intro op hop hl s' evs h
    cases op with
    | insertItem bi item =>
      simp only [step] at h
      by_cases hm : item ∈ s.master
      · rw [if_pos hm] at h; cases h
      · rw [if_neg hm] at h
        have hins : insertedMasterItem env
            { s with master := pyInsert s.master bi item } item
            = ({ s with master := pyInsert s.master bi item }, []) := by
          simp only [insertedMasterItem]
          rw [if_pos (show ({ s with master := pyInsert s.master bi item} :
            EngineState ι C K).level > 0 from hl)]
        rw [hins] at h
        obtain ⟨h1, h2⟩ := Prod.mk.injEq .. ▸ Option.some.inj h
        rw [← h1, ← h2]
        exact ⟨rfl, rfl, rfl, rfl, rfl, rfl⟩
    | removeItem index =>
      simp only [step] at h
      split at h
      · have hrem : removedMasterItem
            { s with master := s.master.eraseIdx index }
            (s.master.get ⟨index, by assumption⟩)
            = ({ s with master := s.master.eraseIdx index }, []) := by
          simp only [removedMasterItem]
          rw [if_pos (show ({ s with master := s.master.eraseIdx index} :
            EngineState ι C K).level > 0 from hl)]
        rw [hrem] at h
        obtain ⟨h1, h2⟩ := Prod.mk.injEq .. ▸ Option.some.inj h
        rw [← h1, ← h2]
        exact ⟨rfl, rfl, rfl, rfl, rfl, rfl⟩
      · cases h
    | updateItem item =>
      simp only [step] at h
      by_cases hm : item ∈ s.master
      · rw [if_pos hm] at h
        have hupd : updatedMasterItem env s item = (s, []) := by
          simp only [updatedMasterItem]
          rw [if_pos hl]
        rw [hupd] at h
        obtain ⟨h1, h2⟩ := Prod.mk.injEq .. ▸ Option.some.inj h
        rw [← h1, ← h2]
        exact ⟨rfl, rfl, rfl, rfl, rfl, rfl⟩
      · rw [if_neg hm] at h; cases h
    | setFilter f => exact hop.elim
    | setSortKey sk => exact hop.elim
    | setSortReverse b => exact hop.elim
    | beginChange => exact hop.elim
    | endChange => exact hop.elim
  · intro f hl
    simp only [step, updateItems]
    rw [if_pos (show ({ s with fltr := f } : EngineState ι C K).level > 0 from hl)]
  · intro hl
    simp only [step]
    rw [if_pos (show s.level - 1 = 0 by omega)]
    have : ({ s with level := s.level - 1 } : EngineState ι C K)
        = { s with level := 0 } := by rw [show s.level - 1 = 0 by omega]
    rw [this]
  · intro hl
    simp only [step]
    rw [if_neg (show ¬s.level - 1 = 0 by omega)]
  · intro s' evs hl h
    simp only [step] at h
    rw [if_pos (show s.level - 1 = 0 by omega)] at h
    have hs' := updateItems_items env { s with level := s.level - 1 } s' evs
      (by simp; omega) h
    rw [hs']
    rfl

/-- Witness for C5: on a concrete engine at depth 1, `end_change` performs
the single resynchronization call. -/
theorem c5_batching_witness :
    step (fun _ => (0:Int))
      (EngineState.mk [0] [] (fun _ => true) none false 1 : EngineState Nat Int Int)
      Op.endChange
      = updateItems (fun _ => (0:Int))
        (EngineState.mk [0] [] (fun _ => true) none false 0) :=
  (c5_batching (fun _ => (0:Int))
    (EngineState.mk [0] [] (fun _ => true) none false 1)).2.2.2.1 rfl

/-! ## Reachability invariant (C6) -/

theorem mem_eraseIdx_of_ne {α : Type} {l : List α} {i : Nat} (hi : i < l.length)
    {x : α} (hx : x ∈ l) (hne : x ≠ l.get ⟨i, hi⟩) : x ∈ l.eraseIdx i := by
  rw [List.eraseIdx_eq_take_drop_succ]
  conv at hx => rw [← List.take_append_drop (i + 1) l]
  rw [take_succ_of_lt l hi] at hx
  rcases List.mem_append.mp hx with h1 | h2
  · rcases List.mem_append.mp h1 with h3 | h4
    · exact List.mem_append.mpr (Or.inl h3)
    · exact absurd (List.mem_singleton.mp h4) hne
  · exact List.mem_append.mpr (Or.inr h2)

theorem insertedMasterItem_nodupInv {ι C K : Type} [DecidableEq ι]
    [LinearOrder K] (env : ι → C) (s : EngineState ι C K) (item : ι)
    (hInv : NodupInv s) (hm : item ∈ s.master)
    (hi : ¬s.level > 0 → item ∉ s.items) :
    NodupInv (insertedMasterItem env s item).1 := by
  obtain ⟨h1, h2, h3⟩ := hInv
  simp only [insertedMasterItem]
  split_ifs with hl hf
  · exact ⟨h1, h2, h3⟩
  · refine ⟨h1, pyInsert_nodup (hi hl) h2, fun _ x hx => ?_⟩
    rcases mem_pyInsert.mp hx with rfl | hx2
    · exact hm
    · exact h3 hl x hx2
  · exact ⟨h1, h2, h3⟩

theorem removedMasterItem_nodupInv {ι C K : Type} [DecidableEq ι]
    (s : EngineState ι C K) (item : ι) (hInv : NodupInv s) :
    NodupInv (removedMasterItem s item).1 := by
  obtain ⟨h1, h2, h3⟩ := hInv
  simp only [removedMasterItem]
  split_ifs with hl hmem
  · exact ⟨h1, h2, h3⟩
  · refine ⟨h1, h2.eraseIdx _, fun _ x hx => ?_⟩
    exact h3 hl x (List.mem_of_mem_eraseIdx hx)
  · exact ⟨h1, h2, h3⟩

theorem removedMasterItem_not_mem {ι C K : Type} [DecidableEq ι]
    (s : EngineState ι C K) (item : ι) (h2 : s.items.Nodup)
    (hl : ¬s.level > 0) :
    item ∉ (removedMasterItem s item).1.items := by
  simp only [removedMasterItem, if_neg hl]
  split_ifs with hmem
  · show item ∉ s.items.eraseIdx (s.items.indexOf item)
    rw [List.eraseIdx_indexOf_eq_erase]
    exact h2.not_mem_erase
  · exact hmem

theorem removedMasterItem_master {ι C K : Type} [DecidableEq ι]
    (s : EngineState ι C K) (item : ι) :
    (removedMasterItem s item).1.master = s.master := by
  simp only [removedMasterItem]
  split_ifs <;> rfl

theorem updatedMasterItem_nodupInv {ι C K : Type} [DecidableEq ι]
    [LinearOrder K] (env : ι → C) (s : EngineState ι C K) (item : ι)
    (hInv : NodupInv s) (hm : item ∈ s.master) :
    NodupInv (updatedMasterItem env s item).1 := by
  rcases hsk : s.sortKey with - | sk <;>
    simp only [updatedMasterItem, hsk] <;>
    split_ifs <;>
    first
    | exact hInv
    | exact removedMasterItem_nodupInv s item hInv
    | exact insertedMasterItem_nodupInv env s item hInv hm (fun _ => by assumption)
    | (refine insertedMasterItem_nodupInv env _ item
        (removedMasterItem_nodupInv s item hInv) ?_
        (fun _ => removedMasterItem_not_mem s item hInv.2.1 (by assumption))
       rw [removedMasterItem_master]; exact hm)

theorem updateItems_nodupInv {ι C K : Type} [DecidableEq ι] [LinearOrder K]
    (env : ι → C) (t s' : EngineState ι C K) (evs : List (Event ι))
    (h : updateItems env t = some (s', evs)) (hm : t.master.Nodup)
    (hi : t.items.Nodup) : NodupInv s' := by
  by_cases hl : t.level > 0
  · simp only [updateItems, if_pos hl] at h
    obtain ⟨h1, -⟩ := Prod.mk.injEq .. ▸ Option.some.inj h
    rw [← h1]
    exact ⟨hm, hi, fun hl2 => absurd hl hl2⟩
  · rw [updateItems_items env t s' evs hl h]
    exact ⟨hm, buildItems_nodup env t hm,
      fun _ x hx => buildItems_subset_master env t x hx⟩

theorem step_nodupInv {ι C K : Type} [DecidableEq ι] [LinearOrder K]
    (env : ι → C) (s : EngineState ι C K) (op : Op ι C K)
    (s' : EngineState ι C K) (evs : List (Event ι))
    (h : step env s op = some (s', evs)) (hInv : NodupInv s) : NodupInv s' := by
  obtain ⟨h1, h2, h3⟩ := hInv
  cases op with
  | insertItem bi item =>
    simp only [step] at h
    by_cases hm : item ∈ s.master
    · rw [if_pos hm] at h; cases h
    · rw [if_neg hm] at h
      obtain ⟨ha, -⟩ := Prod.mk.injEq .. ▸ Option.some.inj h
      rw [← ha]
      refine insertedMasterItem_nodupInv env _ item
        ⟨pyInsert_nodup hm h1, h2, ?_⟩ (mem_pyInsert.mpr (Or.inl rfl))
        (fun hl hi => hm (h3 hl item hi))
      intro hl x hx
      exact mem_pyInsert.mpr (Or.inr (h3 hl x hx))
  | removeItem index =>
    simp only [step] at h
    split at h
    case isTrue hidx =>
      have ha : (removedMasterItem { s with master := s.master.eraseIdx index }
          (s.master.get ⟨index, hidx⟩)).1 = s' :=
        congrArg Prod.fst (Option.some.inj h)
      rw [← ha]
      simp only [removedMasterItem]
      by_cases hl : s.level > 0
      · rw [if_pos hl]
        exact ⟨h1.eraseIdx _, h2, fun hl2 => absurd hl hl2⟩
      · rw [if_neg hl]
        by_cases hmem : s.master.get ⟨index, hidx⟩ ∈ s.items
        · rw [if_pos hmem]
          refine ⟨h1.eraseIdx _, h2.eraseIdx _, fun _ x hx => ?_⟩
          have hx1 : x ∈ s.items := List.mem_of_mem_eraseIdx hx
          have hxne : x ≠ s.master.get ⟨index, hidx⟩ := by
            intro hxe
            rw [show s.items.eraseIdx (s.items.indexOf
                (s.master.get ⟨index, hidx⟩))
                = s.items.erase (s.master.get ⟨index, hidx⟩) from
              List.eraseIdx_indexOf_eq_erase _ _] at hx
            exact h2.not_mem_erase (hxe ▸ hx)
          exact mem_eraseIdx_of_ne hidx (h3 hl x hx1) (by simpa using hxne)
        · rw [if_neg hmem]
          refine ⟨h1.eraseIdx _, h2, fun hl2 x hx => ?_⟩
          have hxne : x ≠ s.master.get ⟨index, hidx⟩ := by
            intro hxe
            exact hmem (hxe ▸ hx)
          exact mem_eraseIdx_of_ne hidx (h3 hl2 x hx) (by simpa using hxne)
    case isFalse => cases h
  | updateItem item =>
    simp only [step] at h
    by_cases hm : item ∈ s.master
    · rw [if_pos hm] at h
      obtain ⟨ha, -⟩ := Prod.mk.injEq .. ▸ Option.some.inj h
      rw [← ha]
      exact updatedMasterItem_nodupInv env s item ⟨h1, h2, h3⟩ hm
    · rw [if_neg hm] at h; cases h
  | beginChange =>
    simp only [step] at h
    obtain ⟨ha, -⟩ := Prod.mk.injEq .. ▸ Option.some.inj h
    rw [← ha]
    refine ⟨h1, h2, fun hl x hx => ?_⟩
    refine h3 ?_ x hx
    have hl' : ¬s.level + 1 > 0 := hl
    omega
  | endChange =>
    simp only [step] at h
    split_ifs at h with hl
    · exact updateItems_nodupInv env _ s' evs h h1 h2
    · obtain ⟨ha, -⟩ := Prod.mk.injEq .. ▸ Option.some.inj h
      rw [← ha]
      refine ⟨h1, h2, fun hl2 x hx => ?_⟩
      refine h3 ?_ x hx
      have hl' : ¬s.level - 1 = 0 := hl
      have hl2' : ¬s.level - 1 > 0 := hl2
      omega
  | setFilter f =>
    simp only [step] at h
    exact updateItems_nodupInv env _ s' evs h h1 h2
  | setSortKey sk =>
    simp only [step] at h
    exact updateItems_nodupInv env _ s' evs h h1 h2
  | setSortReverse b =>
    simp only [step] at h
    exact updateItems_nodupInv env _ s' evs h h1 h2

theorem runOps_nodupInv {ι C K : Type} [DecidableEq ι] [LinearOrder K] :
    ∀ (ops : List ((ι → C) × Op ι C K)) (s0 s' : EngineState ι C K)
      (evs : List (Event ι)), runOps ops s0 = some (s', evs) →
      NodupInv s0 → NodupInv s' := by
  intro ops
  induction ops with
  | nil =>
    intro s0 s' evs h hInv
    have ha : s0 = s' := congrArg Prod.fst (Option.some.inj h)
    rw [← ha]; exact hInv
  | cons p rest ih =>
    intro s0 s' evs h hInv
    obtain ⟨env, op⟩ := p
    simp only [runOps] at h
    cases hstep : step env s0 op with
    | none => rw [hstep] at h; cases h
    | some q =>
      obtain ⟨s1, evs1⟩ := q
      simp only [hstep] at h
      cases hrest : runOps rest s1 with
      | none => simp only [hrest] at h; cases h
      | some q2 =>
        obtain ⟨s2, evs2⟩ := q2
        simp only [hrest] at h
        have ha : s2 = s' := congrArg Prod.fst (Option.some.inj h)
        rw [← ha]
        exact ih s1 s2 evs2 hrest (step_nodupInv env s0 op s1 evs1 hstep hInv)

/-- C6: from any engine state reachable from creation (such states always
have duplicate-free master and derived lists), a full resynchronization never
fails an internal assertion — in particular the diff walk never finds a
target item at an old index `j < i`, so the `assert index <= old_index`
branch is unreachable.  `updateItems` returns `none` exactly when one of the
source's assertions would fire. -/
theorem c6_resync_assertions_unreachable {ι C K : Type} [DecidableEq ι]
    [LinearOrder K] (ops : List ((ι → C) × Op ι C K))
    (s : EngineState ι C K) (evs : List (Event ι))
    (hrun : runOps ops (initState ι C K) = some (s, evs)) (env' : ι → C) :
    updateItems env' s ≠ none := by
  have hInv : NodupInv s :=
    runOps_nodupInv ops (initState ι C K) s evs hrun
      ⟨List.nodup_nil, List.nodup_nil, fun _ x hx => absurd hx (List.not_mem_nil x)⟩
  by_cases hl : s.level > 0
  · simp only [updateItems, if_pos hl]
    exact fun hc => Option.noConfusion hc
  · obtain ⟨evs2, hsome⟩ := updateItems_some env' s hl hInv.1 hInv.2.1
    rw [hsome]
    exact fun hc => Option.noConfusion hc

/-- Witness for C6 on a concrete one-insert run. -/
theorem c6_resync_assertions_unreachable_witness :
    updateItems (fun _ => (1:Int))
      (EngineState.mk [0] [0] (fun _ => true) none false 0 :
        EngineState Nat Int Int) ≠ none :=
  c6_resync_assertions_unreachable
    [((fun _ => (0:Int)), .insertItem 0 0)]
    (EngineState.mk [0] [0] (fun _ => true) none false 0)
    [Event.ins 0 0] (by rfl) (fun _ => (1:Int))

/-! ## Binary search (C3, C4) -/

/-- Specification of the `__find_sorted_index_for_item` loop: when the probe
predicate is downward closed on `[low, high)` (as it is on a sorted list),
the loop returns the least index at which the probe fails. -/
theorem bsearchLoop_spec (p : Nat → Bool) :
    ∀ (fuel low high : Nat), high - low ≤ fuel → low ≤ high →
      (∀ i j, low ≤ i → i ≤ j → j < high → p j = true → p i = true) →
      low ≤ bsearchLoop p fuel low high ∧ bsearchLoop p fuel low high ≤ high ∧
        (∀ j, low ≤ j → j < bsearchLoop p fuel low high → p j = true) ∧
        (∀ j, bsearchLoop p fuel low high ≤ j → j < high → p j = false) := by
  intro fuel
  induction fuel with
  | zero =>
    intro low high hf hlh _
    have hhl : high = low := by omega
    subst hhl
    simp only [bsearchLoop]
    exact ⟨Nat.le_refl _, Nat.le_refl _,
      fun j h1 h2 => absurd h2 (by omega),
      fun j h1 h2 => absurd h2 (by omega)⟩
  | succ fuel ih =>
    intro low high hf hlh hmono
    simp only [bsearchLoop]
    by_cases hlow : low < high
    · rw [if_pos hlow]
      by_cases hp : p ((low + high) / 2) = true
      · rw [if_pos hp]
        obtain ⟨a1, a2, a3, a4⟩ := ih ((low + high) / 2 + 1) high (by omega)
          (by omega)
          (fun i j hi hij hj hpj => hmono i j (by omega) hij hj hpj)
        refine ⟨by omega, a2, ?_, a4⟩
        intro j hj1 hj2
        by_cases hjm : (low + high) / 2 + 1 ≤ j
        · exact a3 j hjm hj2
        · exact hmono j ((low + high) / 2) hj1 (by omega) (by omega) hp
      · rw [if_neg hp]
        obtain ⟨a1, a2, a3, a4⟩ := ih low ((low + high) / 2) (by omega)
          (by omega)
          (fun i j hi hij hj hpj => hmono i j hi hij (by omega) hpj)
        refine ⟨a1, by omega, a3, ?_⟩
        intro j hj1 hj2
        by_cases hjm : j < (low + high) / 2
        · exact a4 j hj1 hjm
        · cases hpj : p j
          · rfl
          · exact absurd
              (hmono ((low + high) / 2) j (by omega) (by omega) hj2 hpj) hp
    · rw [if_neg hlow]
      exact ⟨Nat.le_refl _, by omega,
        fun j h1 h2 => absurd h2 (by omega),
        fun j h1 h2 => absurd (Nat.lt_of_le_of_lt h1 h2) (by omega)⟩

/-- `__find_sorted_index_for_item` on a list sorted in the requested
direction returns the first index whose existing key does not strictly
precede the new item's key: every position before the result strictly
precedes the new key (ascending: is less; descending: is greater), and every
position from the result on does not. -/
theorem findSortedIndexForItem_spec {ι C K : Type} [LinearOrder K]
    (env : ι → C) (item : ι) (items : List ι) (sk : C → K) (rev : Bool)
    (hsorted : items.Pairwise fun x y =>
      sortOperatorOf rev (sk (env y)) (sk (env x)) = false) :
    findSortedIndexForItem env item items sk (sortOperatorOf rev)
        ≤ items.length ∧
      (∀ j (hj : j < items.length),
        j < findSortedIndexForItem env item items sk (sortOperatorOf rev) →
        sortOperatorOf rev (sk (env (items.get ⟨j, hj⟩))) (sk (env item))
          = true) ∧
      (∀ j (hj : j < items.length),
        findSortedIndexForItem env item items sk (sortOperatorOf rev) ≤ j →
        sortOperatorOf rev (sk (env (items.get ⟨j, hj⟩))) (sk (env item))
          = false) := by
  have hget : ∀ (j : Nat) (hj : j < items.length),
      (fun mid =>
        match items[mid]? with
        | some x => sortOperatorOf rev (sk (env x)) (sk (env item))
        | none => false) j
      = sortOperatorOf rev (sk (env (items.get ⟨j, hj⟩))) (sk (env item)) := by
    intro j hj
    simp only [List.getElem?_eq_getElem hj, List.get_eq_getElem]
  have hpair := List.pairwise_iff_get.mp hsorted
  obtain ⟨a1, a2, a3, a4⟩ := bsearchLoop_spec
    (fun mid =>
      match items[mid]? with
      | some x => sortOperatorOf rev (sk (env x)) (sk (env item))
      | none => false)
    items.length 0 items.length (by omega) (by omega)
    (by
      intro i j hi hij hj hpj
      rcases Nat.lt_or_ge i j with hlt | hge
      · rw [hget j hj] at hpj
        rw [hget i (by omega)]
        exact sortOperatorOf_mono rev _ _ _
          (hpair ⟨i, by omega⟩ ⟨j, hj⟩ hlt) hpj
      · have hij2 : i = j := by omega
        subst hij2
        exact hpj)
  exact ⟨a2, fun j hj hjr => by rw [← hget j hj]; exact a3 j (by omega) hjr,
    fun j hj hjr => by rw [← hget j hj]; exact a4 j hjr hj⟩

/-- C3: with a sort key set and batch depth 0, inserting a matching item into
the sorted derived list places it at the first index whose existing key does
not strictly precede the new key in the sort direction (ascending,
`sortOperatorOf false` = `<`: the first index whose key is not less than the
new key; descending, `sortOperatorOf true` = `>`: the first index whose key
is not greater), and the emitted insert notification carries exactly that
index. -/
theorem c3_sorted_insert_position {ι C K : Type} [DecidableEq ι]
    [LinearOrder K] (env : ι → C) (s : EngineState ι C K) (item : ι)
    (sk : C → K) (hsk : s.sortKey = some sk) (hl : ¬s.level > 0)
    (hf : s.fltr (env item) = true)
    (hsorted : s.items.Pairwise fun x y =>
      sortOperatorOf s.sortRev (sk (env y)) (sk (env x)) = false) :
    findSortedIndexForItem env item s.items sk (sortOperatorOf s.sortRev)
        ≤ s.items.length ∧
      (∀ j (hj : j < s.items.length),
        j < findSortedIndexForItem env item s.items sk (sortOperatorOf s.sortRev) →
        sortOperatorOf s.sortRev (sk (env (s.items.get ⟨j, hj⟩)))
          (sk (env item)) = true) ∧
      (∀ j (hj : j < s.items.length),
        findSortedIndexForItem env item s.items sk (sortOperatorOf s.sortRev) ≤ j →
        sortOperatorOf s.sortRev (sk (env (s.items.get ⟨j, hj⟩)))
          (sk (env item)) = false) ∧
      insertedMasterItem env s item
        = ({ s with items := (pyInsert s.items
              (findSortedIndexForItem env item s.items sk
                (sortOperatorOf s.sortRev)) item) },
          [Event.ins item (findSortedIndexForItem env item s.items sk
            (sortOperatorOf s.sortRev))]) := by
  obtain ⟨a1, a2, a3⟩ := findSortedIndexForItem_spec env item s.items sk
    s.sortRev hsorted
  refine ⟨a1, a2, a3, ?_⟩
  simp only [insertedMasterItem, if_neg hl, hf, if_pos, hsk]

/-- Witness for C3: inserting key 15 into derived keys `[10, 20]` lands at
index 1 and the notification carries index 1. -/
theorem c3_sorted_insert_position_witness :
    (@insertedMasterItem Nat Int Int _ _ (fun n => (n : Int))
      (EngineState.mk [10, 20] [10, 20] (fun _ => true) (some id) false 0)
      15).2 = [Event.ins 15 1] := by
  have h := @c3_sorted_insert_position Nat Int Int _ _ (fun n => (n : Int))
    (EngineState.mk [10, 20] [10, 20] (fun _ => true) (some id) false 0) 15 id
    rfl (by decide) rfl (by decide)
  exact congrArg Prod.snd h.2.2.2

/-- C4: the claim is false as stated: with keys tied, a newly inserted item
is placed before, not after, the existing equal-key items.  Concretely, with
an identity sort key, ascending order, and every item's key equal to 5,
inserting item `1` after item `0` leaves the derived list `[1, 0]`, not the
`[0, 1]` that insertion after all equal-key items would produce. -/
theorem c4_counterexample :
    ((runOps [((fun _ => (5 : Int)), .setSortKey (some id)),
        ((fun _ => (5 : Int)), .insertItem 0 0),
        ((fun _ => (5 : Int)), .insertItem 1 1)]
        (initState Nat Int Int)).map fun p => p.1.items) = some [1, 0] ∧
      ([1, 0] : List Nat) ≠ [0, 1] := by
  constructor
  · rfl
  · decide

/-- C4 (amended): single-item insertion breaks sort-key ties by placing the
new item before every existing equal-key item (the bisect-left rule: the
first position whose existing key does not strictly precede the new key), in
both sort directions. -/
theorem c4_tie_break_amended {ι C K : Type} [LinearOrder K] (env : ι → C)
    (item : ι) (items : List ι) (sk : C → K) (rev : Bool)
    (hsorted : items.Pairwise fun x y =>
      sortOperatorOf rev (sk (env y)) (sk (env x)) = false) :
    ∀ j (hj : j < items.length),
      sk (env (items.get ⟨j, hj⟩)) = sk (env item) →
      findSortedIndexForItem env item items sk (sortOperatorOf rev) ≤ j := by
  intro j hj heq
  by_contra hc
  have h2 := (findSortedIndexForItem_spec env item items sk rev hsorted).2.1
    j hj (by omega)
  rw [heq] at h2
  rw [sortOperatorOf_irrefl] at h2
  cases h2

/-- Witness for the amended C4: inserting key 7 into `[7]` yields index 0,
before the existing equal-key item. -/
theorem c4_tie_break_amended_witness :
    findSortedIndexForItem (fun n => (n : Int)) 7 [7] id
      (sortOperatorOf false) ≤ 0 :=
  c4_tie_break_amended (fun n => (n : Int)) 7 [7] id false (by decide) 0
    (by decide) rfl

/-! ## C10: default filter -/

theorem findUnsortedIndex_eq {ι C : Type} [DecidableEq ι] (env : ι → C)
    (item : ι) (fltr : C → Bool) :
    ∀ (A B : List ι), item ∉ A →
      findUnsortedIndexForItem env item (A ++ item :: B) fltr
        = (A.filter fun x => fltr (env x)).length := by
  intro A
  induction A with
  | nil =>
    intro B _
    simp [findUnsortedIndexForItem]
  | cons a A ih =>
    intro B hA
    have hne : ¬a = item := fun hc =>
      hA (hc ▸ List.mem_cons_self a A)
    simp only [List.cons_append, findUnsortedIndexForItem, if_neg hne,
      List.filter_cons]
    by_cases hf : fltr (env a) = true <;>
      simp [hf, ih B (fun hc => hA (List.mem_cons_of_mem a hc)), Nat.add_comm]

/-- A container insert on a default-configured engine: the item enters both
lists at the (clamped) requested index, with the notification carrying it. -/
theorem step_insert_default {ι C K : Type} [DecidableEq ι] [LinearOrder K]
    (env : ι → C) (s : EngineState ι C K) (bi : Nat) (item : ι)
    (hds : DefaultSync s) (hm : item ∉ s.master) :
    step env s (.insertItem bi item)
      = some ({ s with
                master := pyInsert s.master bi item,
                items := (pyInsert s.items (min bi s.master.length) item) },
        [Event.ins item (min bi s.master.length)]) := by
  obtain ⟨hitems, hfl, hsk, hlv, hnd⟩ := hds
  obtain ⟨master, items, fltr, sortKey, sortRev, level⟩ := s
  simp only at hitems hfl hsk hlv hnd
  subst hitems hfl hsk hlv
  have hidx : findUnsortedIndexForItem env item (pyInsert items bi item)
      (fun _ => true) = min bi items.length := by
    rw [show pyInsert items bi item
        = items.take bi ++ item :: items.drop bi from rfl,
      findUnsortedIndex_eq env item (fun _ => true) (items.take bi)
        (items.drop bi) (fun hc => hm (List.mem_of_mem_take hc)),
      List.filter_eq_self.mpr (fun _ _ => rfl), List.length_take]
  simp only [step, if_neg hm, insertedMasterItem]
  rw [if_neg (show ¬(0 : Int) > 0 by decide)]
  rw [if_true]
  rw [hidx]

theorem step_defaultSync {ι C K : Type} [DecidableEq ι] [LinearOrder K]
    (env : ι → C) (s : EngineState ι C K) (op : Op ι C K)
    (s' : EngineState ι C K) (evs : List (Event ι)) (hop : ContainerOp op)
    (hds : DefaultSync s) (h : step env s op = some (s', evs)) :
    DefaultSync s' := by
  cases op with
  | insertItem bi item =>
    by_cases hm : item ∈ s.master
    · simp only [step, if_pos hm] at h; cases h
    · rw [step_insert_default env s bi item hds hm] at h
      have ha := congrArg Prod.fst (Option.some.inj h)
      simp only at ha
      rw [← ha]
      obtain ⟨hitems, hfl, hsk, hlv, hnd⟩ := hds
      refine ⟨?_, hfl, hsk, hlv, pyInsert_nodup hm hnd⟩
      show pyInsert s.items (min bi s.master.length) item
        = pyInsert s.master bi item
      rw [hitems, ← pyInsert_clamp]
  | removeItem index =>
    obtain ⟨hitems, hfl, hsk, hlv, hnd⟩ := hds
    simp only [step] at h
    split at h
    case isTrue hidx =>
      have ha : (removedMasterItem { s with master := s.master.eraseIdx index }
          (s.master.get ⟨index, hidx⟩)).1 = s' :=
        congrArg Prod.fst (Option.some.inj h)
      rw [← ha]
      simp only [removedMasterItem]
      rw [if_neg (show ¬({ s with master := s.master.eraseIdx index} :
          EngineState ι C K).level > 0 by simp [hlv])]
      rw [if_pos (show s.master.get ⟨index, hidx⟩ ∈
          ({ s with master := s.master.eraseIdx index} :
            EngineState ι C K).items by
        show s.master.get ⟨index, hidx⟩ ∈ s.items
        rw [hitems, List.get_eq_getElem]
        exact List.getElem_mem _)]
      refine ⟨?_, hfl, hsk, hlv, hnd.eraseIdx _⟩
      show s.items.eraseIdx (s.items.indexOf (s.master.get ⟨index, hidx⟩))
        = s.master.eraseIdx index
      rw [hitems, List.get_eq_getElem, List.indexOf_getElem hnd index hidx]
    case isFalse => cases h
  | updateItem item =>
    obtain ⟨hitems, hfl, hsk, hlv, hnd⟩ := hds
    obtain ⟨master, items, fltr, sortKey, sortRev, level⟩ := s
    simp only at hitems hfl hsk hlv hnd
    subst hitems hfl hsk hlv
    simp only [step] at h
    by_cases hm : item ∈ items
    · rw [if_pos hm] at h
      have hupd : updatedMasterItem env
          (⟨items, items, fun _ => true, none, sortRev, 0⟩ :
            EngineState ι C K) item
          = ((⟨items, items, fun _ => true, none, sortRev, 0⟩ :
            EngineState ι C K), []) := by
        simp only [updatedMasterItem]
        rw [if_neg (show ¬(0 : Int) > 0 by decide), if_true, if_pos hm]
      rw [hupd] at h
      have ha := congrArg Prod.fst (Option.some.inj h)
      simp only at ha
      rw [← ha]
      exact ⟨rfl, rfl, rfl, rfl, hnd⟩
    · rw [if_neg hm] at h; cases h
  | setFilter f => exact hop.elim
  | setSortKey sk => exact hop.elim
  | setSortReverse b => exact hop.elim
  | beginChange => exact hop.elim
  | endChange => exact hop.elim

theorem runOps_defaultSync {ι C K : Type} [DecidableEq ι] [LinearOrder K] :
    ∀ (ops : List ((ι → C) × Op ι C K)) (s0 s' : EngineState ι C K)
      (evs : List (Event ι)), (∀ p ∈ ops, ContainerOp p.2) →
      runOps ops s0 = some (s', evs) → DefaultSync s0 → DefaultSync s' := by
  intro ops
  induction ops with
  | nil =>
    intro s0 s' evs _ h hds
    have ha : s0 = s' := congrArg Prod.fst (Option.some.inj h)
    rw [← ha]; exact hds
  | cons p rest ih =>
    intro s0 s' evs hc h hds
    obtain ⟨env, op⟩ := p
    simp only [runOps] at h
    cases hstep : step env s0 op with
    | none => rw [hstep] at h; cases h
    | some q =>
      obtain ⟨s1, evs1⟩ := q
      simp only [hstep] at h
      cases hrest : runOps rest s1 with
      | none => simp only [hrest] at h; cases h
      | some q2 =>
        obtain ⟨s2, evs2⟩ := q2
        simp only [hrest] at h
        have ha : s2 = s' := congrArg Prod.fst (Option.some.inj h)
        rw [← ha]
        exact ih s1 s2 evs2 (fun p hp => hc p (List.mem_cons_of_mem _ hp))
          hrest
          (step_defaultSync env s0 op s1 evs1
            (hc (env, op) (List.mem_cons_self _ _)) hds hstep)

/-- C10: an engine whose filter is never assigned keeps the constant-true
default: under container-driven operations only (no sort key ever set), the
derived list always equals the master list in source order, and a container
insertion at a valid index is immediately reflected at the same derived
index, with the notification carrying it. -/
theorem c10_default_filter {ι C K : Type} [DecidableEq ι] [LinearOrder K]
    (ops : List ((ι → C) × Op ι C K)) (hc : ∀ p ∈ ops, ContainerOp p.2)
    (s : EngineState ι C K) (evs : List (Event ι))
    (hrun : runOps ops (initState ι C K) = some (s, evs)) :
    s.items = s.master ∧
      ∀ (env : ι → C) (bi : Nat) (item : ι), item ∉ s.master →
        bi ≤ s.master.length →
        step env s (.insertItem bi item)
          = some ({ s with
                    master := pyInsert s.master bi item,
                    items := (pyInsert s.items bi item) },
            [Event.ins item bi]) := by
  have hds : DefaultSync s :=
    runOps_defaultSync ops (initState ι C K) s evs hc hrun
      ⟨rfl, rfl, rfl, rfl, List.nodup_nil⟩
  refine ⟨hds.1, ?_⟩
  intro env bi item hm hbi
  rw [step_insert_default env s bi item hds hm, Nat.min_eq_left hbi]

/-- Witness for C10 on a concrete two-op container run. -/
theorem c10_default_filter_witness :
    step (fun _ => (0 : Int))
      (EngineState.mk [4, 5] [4, 5] (fun _ => true) none false 0 :
        EngineState Nat Int Int) (.insertItem 1 9)
      = some (EngineState.mk [4, 9, 5] [4, 9, 5] (fun _ => true) none false 0,
        [Event.ins 9 1]) := by
  have h := c10_default_filter
    ([((fun _ => (0 : Int)), .insertItem 0 4),
      ((fun _ => (0 : Int)), .insertItem 1 5)] :
      List ((Nat → Int) × Op Nat Int Int))
    (by intro p hp; fin_cases hp <;> trivial)
    (EngineState.mk [4, 5] [4, 5] (fun _ => true) none false 0)
    [Event.ins 4 0, Event.ins 5 1] (by rfl)
  have h2 := h.2 (fun _ => (0 : Int)) 1 9 (by decide) (by decide)
  exact h2

/-! ## C1: the derived-list invariant under container operations -/

theorem mem_take_index {α : Type} {l : List α} {r : Nat} {x : α}
    (hx : x ∈ l.take r) :
    ∃ j, ∃ hj : j < l.length, j < r ∧ l.get ⟨j, hj⟩ = x := by
  obtain ⟨n, hn, he⟩ := List.getElem_of_mem hx
  have hlen := hn
  rw [List.length_take] at hlen
  have h1 : n < r := lt_of_lt_of_le hlen inf_le_left
  have h2 : n < l.length := lt_of_lt_of_le hlen inf_le_right
  refine ⟨n, h2, h1, ?_⟩
  rw [List.get_eq_getElem]
  exact (List.getElem_take l).symm.trans he

theorem mem_drop_index {α : Type} {l : List α} {r : Nat} {x : α}
    (hx : x ∈ l.drop r) :
    ∃ j, ∃ hj : j < l.length, r ≤ j ∧ l.get ⟨j, hj⟩ = x := by
  obtain ⟨n, hn, he⟩ := List.getElem_of_mem hx
  have hlen := hn
  rw [List.length_drop] at hlen
  refine ⟨r + n, by omega, by omega, ?_⟩
  rw [List.get_eq_getElem, ← List.getElem_drop l]
  exact he

theorem filter_pyInsert_neg {α : Type} (p : α → Bool) (l : List α) (i : Nat)
    (a : α) (h : p a = false) : (pyInsert l i a).filter p = l.filter p := by
  have h2 : (pyInsert l i a).filter p
      = (l.take i).filter p ++ (l.drop i).filter p := by
    show ((l.take i ++ a :: l.drop i).filter p) = _
    rw [List.filter_append, List.filter_cons,
      if_neg (show ¬p a = true by simp [h])]
  rw [h2, ← List.filter_append, List.take_append_drop]

theorem filter_erase_pos {α : Type} [DecidableEq α] (p : α → Bool)
    {l : List α} (hl : l.Nodup) (a : α) (hpa : p a = true) :
    (l.erase a).filter p = (l.filter p).erase a := by
  induction l with
  | nil => rfl
  | cons b l ih =>
    obtain ⟨hb, hl'⟩ := List.nodup_cons.mp hl
    by_cases hba : b = a
    · subst hba
      rw [List.erase_cons_head, List.filter_cons, if_pos hpa,
        List.erase_cons_head]
    · have hba' : ¬(b == a) = true := by simp [hba]
      rw [List.erase_cons_tail hba', List.filter_cons, List.filter_cons]
      by_cases hpb : p b = true
      · rw [if_pos hpb, if_pos hpb, ih hl', List.erase_cons_tail hba']
      · rw [if_neg hpb, if_neg hpb, ih hl']

theorem filter_erase_neg {α : Type} [DecidableEq α] (p : α → Bool)
    (l : List α) (a : α) (hpa : p a = false) :
    (l.erase a).filter p = l.filter p := by
  induction l with
  | nil => rfl
  | cons b l ih =>
    by_cases hba : b = a
    · subst hba
      rw [List.erase_cons_head, List.filter_cons,
        if_neg (show ¬p b = true by simp [hpa])]
    · have hba' : ¬(b == a) = true := by simp [hba]
      rw [List.erase_cons_tail hba', List.filter_cons, List.filter_cons]
      by_cases hpb : p b = true
      · rw [if_pos hpb, if_pos hpb, ih]
      · rw [if_neg hpb, if_neg hpb, ih]

/-- Inserting at the bisect-left index keeps the derived list sorted. -/
theorem pairwise_pyInsert_sorted {ι C K : Type} [LinearOrder K] (env : ι → C)
    (item : ι) (items : List ι) (sk : C → K) (rev : Bool)
    (hsorted : items.Pairwise fun x y =>
      sortOperatorOf rev (sk (env y)) (sk (env x)) = false) :
    (pyInsert items
        (findSortedIndexForItem env item items sk (sortOperatorOf rev))
        item).Pairwise fun x y =>
      sortOperatorOf rev (sk (env y)) (sk (env x)) = false := by
  obtain ⟨hle, hlt, hge⟩ :=
    findSortedIndexForItem_spec env item items sk rev hsorted
  have hpair := List.pairwise_iff_get.mp hsorted
  show List.Pairwise _
    (items.take (findSortedIndexForItem env item items sk (sortOperatorOf rev))
      ++ item ::
        items.drop (findSortedIndexForItem env item items sk (sortOperatorOf rev)))
  refine List.pairwise_append.mpr ⟨?_, ?_, ?_⟩
  · exact List.Pairwise.sublist (List.take_sublist _ items) hsorted
  · refine List.pairwise_cons.mpr
      ⟨?_, List.Pairwise.sublist (List.drop_sublist _ items) hsorted⟩
    intro y hy
    obtain ⟨j, hj, hrj, hget⟩ := mem_drop_index hy
    have h2 := hge j hj hrj
    rw [hget] at h2
    exact h2
  · intro a ha b hb
    obtain ⟨i, hi, hir, hgeti⟩ := mem_take_index ha
    rcases List.mem_cons.mp hb with hb1 | hb2
    · subst hb1
      have h1 := hlt i hi hir
      rw [hgeti] at h1
      exact sortOperatorOf_asymm rev _ _ h1
    · obtain ⟨j, hj, hrj, hgetj⟩ := mem_drop_index hb2
      have h2 := hpair ⟨i, hi⟩ ⟨j, hj⟩ (Fin.mk_lt_mk.mpr (by omega))
      rw [hgeti, hgetj] at h2
      exact h2

/-- A container insert into fresh master position preserves the
synchronization invariant. -/
theorem insertedMasterItem_good {ι C K : Type} [DecidableEq ι] [LinearOrder K]
    (env : ι → C) (s : EngineState ι C K) (bi : Nat) (item : ι)
    (hg : GoodState env s) (hm : item ∉ s.master) :
    GoodState env (insertedMasterItem env
      { s with master := pyInsert s.master bi item } item).1 := by
  obtain ⟨hmn, hin, hl0, hmem, hun, hsort⟩ := hg
  have hnotmem : item ∉ s.items := fun hc => hm ((hmem item).mp hc).1
  have hmn' : (pyInsert s.master bi item).Nodup := pyInsert_nodup hm hmn
  have hl : ¬(s.level > 0) := by omega
  by_cases hf : s.fltr (env item) = true
  · rcases hsk : s.sortKey with - | sk
    · -- no sort key: the item lands at its master-order position
      have hstep : insertedMasterItem env
          ({ s with
            master := pyInsert s.master bi item,
            sortKey := none } : EngineState ι C K) item =
          ({ s with
            master := pyInsert s.master bi item,
            sortKey := none,
            items := pyInsert s.items
              (findUnsortedIndexForItem env item
                (pyInsert s.master bi item) s.fltr) item },
            [Event.ins item (findUnsortedIndexForItem env item
              (pyInsert s.master bi item) s.fltr)]) := by
        simp only [insertedMasterItem, if_neg hl, hf, if_pos]
      rw [hstep]
      have hidx : findUnsortedIndexForItem env item
          (pyInsert s.master bi item) s.fltr
          = ((s.master.take bi).filter fun x => s.fltr (env x)).length :=
        findUnsortedIndex_eq env item s.fltr (s.master.take bi)
          (s.master.drop bi) (fun hc => hm (List.mem_of_mem_take hc))
      have hitems_eq : s.items
          = (s.master.take bi).filter (fun x => s.fltr (env x))
            ++ (s.master.drop bi).filter (fun x => s.fltr (env x)) := by
        rw [hun hsk, ← List.filter_append, List.take_append_drop]
      have hnew : pyInsert s.items
          (((s.master.take bi).filter fun x => s.fltr (env x)).length) item
          = (s.master.take bi).filter (fun x => s.fltr (env x))
            ++ item :: (s.master.drop bi).filter (fun x => s.fltr (env x)) := by
        rw [hitems_eq]
        exact pyInsert_append _ _ _
      have hfilter' : (pyInsert s.master bi item).filter
            (fun x => s.fltr (env x))
          = (s.master.take bi).filter (fun x => s.fltr (env x))
            ++ item :: (s.master.drop bi).filter (fun x => s.fltr (env x)) := by
        show (s.master.take bi ++ item :: s.master.drop bi).filter _ = _
        rw [List.filter_append, List.filter_cons, if_pos hf]
      simp only [GoodState]
      refine ⟨hmn', ?_, hl0, ?_, ?_, ?_⟩
      · rw [hidx, hnew, ← hfilter']
        exact List.Nodup.filter _ hmn'
      · intro x
        rw [hidx, hnew, ← hfilter']
        exact List.mem_filter
      · intro _
        rw [hidx, hnew, ← hfilter']
      · intro sk h
        exact Option.noConfusion h
    · -- sort key set: the item lands at its bisect-left position
      have hstep : insertedMasterItem env
          { s with
            master := pyInsert s.master bi item,
            sortKey := some sk } item =
          ({ s with
            master := pyInsert s.master bi item,
            sortKey := some sk,
            items := pyInsert s.items
              (findSortedIndexForItem env item s.items sk
                (sortOperatorOf s.sortRev)) item },
            [Event.ins item (findSortedIndexForItem env item s.items sk
              (sortOperatorOf s.sortRev))]) := by
        simp only [insertedMasterItem, if_neg hl, hf, if_pos]
      rw [hstep]
      simp only [GoodState]
      refine ⟨hmn', ?_, hl0, ?_, ?_, ?_⟩
      · exact pyInsert_nodup hnotmem hin
      · intro x
        rw [mem_pyInsert]
        constructor
        · rintro (rfl | hx)
          · exact ⟨mem_pyInsert.mpr (Or.inl rfl), hf⟩
          · obtain ⟨h1, h2⟩ := (hmem x).mp hx
            exact ⟨mem_pyInsert.mpr (Or.inr h1), h2⟩
        · rintro ⟨h1, h2⟩
          rcases mem_pyInsert.mp h1 with rfl | h3
          · exact Or.inl rfl
          · exact Or.inr ((hmem x).mpr ⟨h3, h2⟩)
      · intro h
        exact Option.noConfusion h
      · intro sk' h
        obtain rfl : sk = sk' := Option.some.inj h
        exact pairwise_pyInsert_sorted env item s.items sk s.sortRev
          (hsort sk hsk)
  · -- filter rejects the new item: derived list untouched
    have hstep : insertedMasterItem env
        { s with master := pyInsert s.master bi item } item =
        ({ s with master := pyInsert s.master bi item }, []) := by
      simp only [insertedMasterItem, if_neg hl, if_neg hf]
    rw [hstep]
    have hf' : s.fltr (env item) = false := Bool.eq_false_iff.mpr hf
    simp only [GoodState]
    refine ⟨hmn', hin, hl0, ?_, ?_, hsort⟩
    · intro x
      constructor
      · intro hx
        obtain ⟨h1, h2⟩ := (hmem x).mp hx
        exact ⟨mem_pyInsert.mpr (Or.inr h1), h2⟩
      · rintro ⟨h1, h2⟩
        rcases mem_pyInsert.mp h1 with rfl | h3
        · rw [hf'] at h2
          exact Bool.noConfusion h2
        · exact (hmem x).mpr ⟨h3, h2⟩
    · intro h
      rw [hun h, filter_pyInsert_neg _ s.master bi item hf']

/-- A container remove preserves the synchronization invariant. -/
theorem removedMasterItem_good {ι C K : Type} [DecidableEq ι] [LinearOrder K]
    (env : ι → C) (s : EngineState ι C K) (index : Nat)
    (hidx : index < s.master.length) (hg : GoodState env s) :
    GoodState env (removedMasterItem
      { s with master := s.master.eraseIdx index }
      (s.master.get ⟨index, hidx⟩)).1 := by
  obtain ⟨hmn, hin, hl0, hmem, hun, hsort⟩ := hg
  have hl : ¬(s.level > 0) := by omega
  have hmem0 : s.master.get ⟨index, hidx⟩ ∈ s.master := by
    rw [List.get_eq_getElem]
    exact List.getElem_mem _
  have hios : s.master.indexOf (s.master.get ⟨index, hidx⟩) = index := by
    rw [List.get_eq_getElem]
    exact List.indexOf_getElem hmn index hidx
  have herase : s.master.eraseIdx index
      = s.master.erase (s.master.get ⟨index, hidx⟩) := by
    conv_lhs => rw [← hios]
    exact List.eraseIdx_indexOf_eq_erase _ s.master
  have hmn' : (s.master.eraseIdx index).Nodup := by
    rw [herase]
    exact hmn.erase _
  have hmem' : ∀ x, x ∈ s.master.eraseIdx index
      ↔ x ≠ s.master.get ⟨index, hidx⟩ ∧ x ∈ s.master := by
    intro x
    rw [herase]
    exact List.Nodup.mem_erase_iff hmn
  by_cases hmi : s.master.get ⟨index, hidx⟩ ∈ s.items
  · have hp0 : s.fltr (env (s.master.get ⟨index, hidx⟩)) = true :=
      ((hmem _).mp hmi).2
    have hstep : removedMasterItem
        { s with master := s.master.eraseIdx index }
        (s.master.get ⟨index, hidx⟩)
        = ({ s with
            master := s.master.eraseIdx index,
            items := s.items.eraseIdx
              (s.items.indexOf (s.master.get ⟨index, hidx⟩)) },
          [Event.rem (s.master.get ⟨index, hidx⟩)
            (s.items.indexOf (s.master.get ⟨index, hidx⟩))]) := by
      simp only [removedMasterItem, if_neg hl, if_pos hmi]
    rw [hstep]
    have hierase : s.items.eraseIdx
        (s.items.indexOf (s.master.get ⟨index, hidx⟩))
        = s.items.erase (s.master.get ⟨index, hidx⟩) :=
      List.eraseIdx_indexOf_eq_erase _ s.items
    simp only [GoodState]
    refine ⟨hmn', ?_, hl0, ?_, ?_, ?_⟩
    · rw [hierase]
      exact hin.erase _
    · intro x
      rw [hierase, List.Nodup.mem_erase_iff hin, hmem x, hmem' x]
      constructor
      · rintro ⟨h1, h2, h3⟩
        exact ⟨⟨h1, h2⟩, h3⟩
      · rintro ⟨⟨h1, h2⟩, h3⟩
        exact ⟨h1, h2, h3⟩
    · intro h
      rw [hierase, hun h, herase, filter_erase_pos _ hmn _ hp0]
    · intro sk h
      rw [hierase]
      exact List.Pairwise.sublist (List.erase_sublist _ s.items) (hsort sk h)
  · have hp0 : s.fltr (env (s.master.get ⟨index, hidx⟩)) = false := by
      rw [Bool.eq_false_iff]
      intro hc
      exact hmi ((hmem _).mpr ⟨hmem0, hc⟩)
    have hstep : removedMasterItem
        { s with master := s.master.eraseIdx index }
        (s.master.get ⟨index, hidx⟩)
        = ({ s with master := s.master.eraseIdx index }, []) := by
      simp only [removedMasterItem, if_neg hl, if_neg hmi]
    rw [hstep]
    simp only [GoodState]
    refine ⟨hmn', hin, hl0, ?_, ?_, hsort⟩
    · intro x
      rw [hmem x, hmem' x]
      constructor
      · rintro ⟨h1, h2⟩
        refine ⟨⟨?_, h1⟩, h2⟩
        rintro rfl
        rw [hp0] at h2
        exact Bool.noConfusion h2
      · rintro ⟨⟨h1, h2⟩, h3⟩
        exact ⟨h2, h3⟩
    · intro h
      rw [hun h, herase, filter_erase_neg _ s.master _ hp0]

/-- A content update of a master item preserves the synchronization
invariant. -/
theorem updatedMasterItem_good {ι C K : Type} [DecidableEq ι] [LinearOrder K]
    (env : ι → C) (s : EngineState ι C K) (item : ι)
    (hg : GoodState env s) (hm : item ∈ s.master) :
    GoodState env (updatedMasterItem env s item).1 := by
  have hg' := hg
  obtain ⟨hmn, hin, hl0, hmem, hun, hsort⟩ := hg
  have hl : ¬(s.level > 0) := by omega
  by_cases hf : s.fltr (env item) = true
  · have hmi : item ∈ s.items := (hmem item).mpr ⟨hm, hf⟩
    rcases hsk : s.sortKey with - | sk
    · have hstep : updatedMasterItem env s item = (s, []) := by
        simp only [updatedMasterItem, if_neg hl, hf, if_pos, hsk, if_pos hmi]
      rw [hstep]
      exact hg'
    · have hp := hsort sk hsk
      have hspec := findSortedIndexForItem_spec env item s.items sk s.sortRev hp
      have hidxlt : s.items.indexOf item < s.items.length :=
        List.indexOf_lt_length.mpr hmi
      have hble : findSortedIndexForItem env item s.items sk
          (sortOperatorOf s.sortRev) ≤ s.items.indexOf item := by
        by_contra hc
        have h2 := hspec.2.1 (s.items.indexOf item) hidxlt (by omega)
        rw [List.indexOf_get hidxlt] at h2
        rw [sortOperatorOf_irrefl] at h2
        exact Bool.noConfusion h2
      by_cases hblt : findSortedIndexForItem env item s.items sk
          (sortOperatorOf s.sortRev) < s.items.indexOf item
      · -- relocation: remove, then re-insert at the recomputed position
        have hr1 : (removedMasterItem s item).1
            = { s with items := s.items.erase item } := by
          simp only [removedMasterItem, if_neg hl, if_pos hmi]
          rw [List.eraseIdx_indexOf_eq_erase]
        have hstep : (updatedMasterItem env s item).1
            = (insertedMasterItem env
                { s with
                  items := s.items.erase item,
                  sortKey := some sk } item).1 := by
          simp only [updatedMasterItem, if_neg hl, hf, if_pos, hsk,
            if_pos hmi, if_pos hblt]
          rw [hr1, hsk]
        rw [hstep]
        have htin : (s.items.erase item).Nodup := hin.erase item
        have htni : item ∉ s.items.erase item := hin.not_mem_erase
        have htp : (s.items.erase item).Pairwise (fun x y =>
            sortOperatorOf s.sortRev (sk (env y)) (sk (env x)) = false) :=
          List.Pairwise.sublist (List.erase_sublist item s.items) hp
        have hstep2 : insertedMasterItem env
            { s with
              items := s.items.erase item,
              sortKey := some sk } item
            = ({ s with
                items := (pyInsert (s.items.erase item)
                  (findSortedIndexForItem env item (s.items.erase item) sk
                    (sortOperatorOf s.sortRev)) item),
                sortKey := some sk },
                [Event.ins item (findSortedIndexForItem env item
                  (s.items.erase item) sk (sortOperatorOf s.sortRev))]) := by
          simp only [insertedMasterItem, if_neg hl, hf, if_pos]
        rw [hstep2]
        simp only [GoodState]
        refine ⟨hmn, ?_, hl0, ?_, ?_, ?_⟩
        · exact pyInsert_nodup htni htin
        · intro x
          rw [mem_pyInsert, List.Nodup.mem_erase_iff hin]
          constructor
          · rintro (rfl | ⟨h1, h2⟩)
            · exact ⟨hm, hf⟩
            · exact (hmem x).mp h2
          · intro hx
            by_cases hxi : x = item
            · exact Or.inl hxi
            · exact Or.inr ⟨hxi, (hmem x).mpr hx⟩
        · intro h
          exact Option.noConfusion h
        · intro sk' h
          obtain rfl : sk = sk' := Option.some.inj h
          exact pairwise_pyInsert_sorted env item (s.items.erase item) sk
            s.sortRev htp
      · -- already at its position: no change
        have hstep : updatedMasterItem env s item = (s, []) := by
          simp only [updatedMasterItem, if_neg hl, hf, if_pos, hsk,
            if_pos hmi, if_neg hblt,
            if_neg (show ¬findSortedIndexForItem env item s.items sk
              (sortOperatorOf s.sortRev) > s.items.indexOf item by omega)]
        rw [hstep]
        exact hg'
  · -- filter rejects: the item was not in the derived list and stays out
    have hni : item ∉ s.items := fun hc => hf ((hmem item).mp hc).2
    have hstep : updatedMasterItem env s item = (s, []) := by
      simp only [updatedMasterItem, if_neg hl, if_neg hf, if_neg hni]
    rw [hstep]
    exact hg'

/-- Any container step at batch depth 0 preserves the synchronization
invariant. -/
theorem step_good {ι C K : Type} [DecidableEq ι] [LinearOrder K] (env : ι → C)
    (s : EngineState ι C K) (op : Op ι C K) (hop : ContainerOp op)
    (hg : GoodState env s) :
    ∀ s' evs, step env s op = some (s', evs) → GoodState env s' := by
  intro s' evs h
  cases op with
  | insertItem bi item =>
    simp only [step] at h
    by_cases hm : item ∈ s.master
    · rw [if_pos hm] at h
      cases h
    · rw [if_neg hm] at h
      have ha : (insertedMasterItem env
          { s with master := pyInsert s.master bi item } item).1 = s' :=
        congrArg Prod.fst (Option.some.inj h)
      exact ha ▸ insertedMasterItem_good env s bi item hg hm
  | removeItem index =>
    simp only [step] at h
    by_cases hidx : index < s.master.length
    · rw [dif_pos hidx] at h
      have ha : (removedMasterItem
          { s with master := s.master.eraseIdx index }
          (s.master.get ⟨index, hidx⟩)).1 = s' :=
        congrArg Prod.fst (Option.some.inj h)
      exact ha ▸ removedMasterItem_good env s index hidx hg
    · rw [dif_neg hidx] at h
      cases h
  | updateItem item =>
    simp only [step] at h
    by_cases hm : item ∈ s.master
    · rw [if_pos hm] at h
      have ha : (updatedMasterItem env s item).1 = s' :=
        congrArg Prod.fst (Option.some.inj h)
      exact ha ▸ updatedMasterItem_good env s item hg hm
    · rw [if_neg hm] at h
      cases h
  | setFilter f => exact hop.elim
  | setSortKey sk => exact hop.elim
  | setSortReverse b => exact hop.elim
  | beginChange => exact hop.elim
  | endChange => exact hop.elim

/-- A whole run of container operations preserves the synchronization
invariant. -/
theorem runOps_good {ι C K : Type} [DecidableEq ι] [LinearOrder K]
    (env : ι → C) :
    ∀ (ops : List (Op ι C K)) (s0 s : EngineState ι C K)
      (evs : List (Event ι)), (∀ op ∈ ops, ContainerOp op) →
      GoodState env s0 →
      runOps (ops.map fun op => (env, op)) s0 = some (s, evs) →
      GoodState env s := by
  intro ops
  induction ops with
  | nil =>
    intro s0 s evs _ hg h
    simp only [List.map_nil, runOps] at h
    have ha : s0 = s := congrArg Prod.fst (Option.some.inj h)
    rw [← ha]
    exact hg
  | cons op rest ih =>
    intro s0 s evs hcont hg h
    simp only [List.map_cons, runOps] at h
    cases hstep : step env s0 op with
    | none =>
      rw [hstep] at h
      cases h
    | some q =>
      obtain ⟨s1, evs1⟩ := q
      simp only [hstep] at h
      have hg1 := step_good env s0 op (hcont op (List.mem_cons_self op rest))
        hg s1 evs1 hstep
      cases hrest : runOps (rest.map fun op => (env, op)) s1 with
      | none =>
        simp only [hrest] at h
        cases h
      | some q2 =>
        obtain ⟨s2, evs2⟩ := q2
        simp only [hrest] at h
        have ha : s2 = s := congrArg Prod.fst (Option.some.inj h)
        rw [← ha]
        exact ih s1 s2 evs2 (fun o ho => hcont o (List.mem_cons_of_mem op ho))
          hg1 hrest

/-- With a sort key set, a content change that moves an item's key, followed
by that item's update callback, can leave the derived list unsorted even with
injective keys: the binary search reads the changed key at the item's stale
position and concludes `before_index == index`, so no relocation happens.
Concretely, after inserting items with keys 1, 2, 3 and changing the middle
item's key to 10, the update callback leaves the derived list `[0, 1, 2]`
(keys `[1, 10, 3]`), while the sort-then-filter rebuild is `[0, 2, 1]`.  This
is why the run-level derived-list invariant below fixes one item-content
environment for the whole run. -/
theorem sorted_update_stale_run :
    ((runOps [((fun n => if n = 0 then (1 : Int) else if n = 1 then 2 else 3),
        .setSortKey (some id)),
      ((fun n => if n = 0 then (1 : Int) else if n = 1 then 2 else 3),
        .insertItem 0 0),
      ((fun n => if n = 0 then (1 : Int) else if n = 1 then 2 else 3),
        .insertItem 1 1),
      ((fun n => if n = 0 then (1 : Int) else if n = 1 then 2 else 3),
        .insertItem 2 2),
      ((fun n => if n = 0 then (1 : Int) else if n = 1 then 10 else 3),
        .updateItem 1)] (initState Nat Int Int)).map fun p =>
        (p.1.items, buildItems
          (fun n => if n = 0 then (1 : Int) else if n = 1 then 10 else 3) p.1))
      = some ([0, 1, 2], [0, 2, 1]) ∧ ([0, 1, 2] : List Nat) ≠ [0, 2, 1] := by
  constructor
  · rfl
  · decide

/-- C1: the claim is false as stated.  With a sort key set and all keys tied,
container insertion uses bisect-left on the current derived list, while the
claimed sort-then-filter rebuild stable-sorts the master list: inserting
master items `0` then `1` (every key `5`) leaves the derived list `[1, 0]`,
but the stable sort-then-filter of the master list `[0, 1]` is `[0, 1]`. -/
theorem c1_counterexample :
    ((runOps [((fun _ => (5 : Int)), .setSortKey (some id)),
        ((fun _ => (5 : Int)), .insertItem 0 0),
        ((fun _ => (5 : Int)), .insertItem 1 1)]
        (initState Nat Int Int)).map fun p =>
          (p.1.items, buildItems (fun _ => (5 : Int)) p.1))
      = some ([1, 0], [0, 1]) ∧ ([1, 0] : List Nat) ≠ [0, 1] := by
  constructor
  · rfl
  · decide

/-- C1 (amended): after any sequence of container insert/remove/update
operations at batch depth 0 from an empty engine (any filter/sort settings),
all operations observing one fixed item-content environment — no item's
content, hence no sort key or filter outcome, changes during the sequence —
the derived list is duplicate-free with length at most the master list's;
when unsorted it equals exactly the filtered master list in master order; and
when sorted it is a permutation of the filtered master list, is sorted by the
sort key in the requested direction, and equals the sort-then-filter rebuild
exactly whenever the sort key is injective on the master items.  Both
restrictions are necessary: ties may be ordered differently from the stable
rebuild (`c1_counterexample`), and a mid-run content change can leave the
sorted list stale (`sorted_update_stale_run`). -/
theorem c1_derived_list_amended {ι C K : Type} [DecidableEq ι] [LinearOrder K]
    (env : ι → C) (ops : List (Op ι C K))
    (hcont : ∀ op ∈ ops, ContainerOp op) (s0 : EngineState ι C K)
    (hm0 : s0.master = []) (hi0 : s0.items = []) (hl0 : s0.level = 0)
    (s : EngineState ι C K) (evs : List (Event ι))
    (hrun : runOps (ops.map fun op => (env, op)) s0 = some (s, evs)) :
    s.items.Nodup ∧ s.items.length ≤ s.master.length ∧
      (s.sortKey = none → s.items = buildItems env s) ∧
      (∀ sk, s.sortKey = some sk →
        s.items.Perm (s.master.filter fun i => s.fltr (env i)) ∧
        s.items.Pairwise (fun x y =>
          sortOperatorOf s.sortRev (sk (env y)) (sk (env x)) = false) ∧
        ((∀ x ∈ s.master, ∀ y ∈ s.master, sk (env x) = sk (env y) → x = y) →
          s.items = buildItems env s)) := by
  have hg0 : GoodState env s0 := by
    refine ⟨hm0 ▸ List.nodup_nil, hi0 ▸ List.nodup_nil, hl0, ?_, ?_, ?_⟩
    · intro x
      rw [hm0, hi0]
      simp
    · intro _
      rw [hm0, hi0]
      simp
    · intro sk _
      rw [hi0]
      exact List.Pairwise.nil
  obtain ⟨hmn, hin, -, hmem, hun, hsortp⟩ :=
    runOps_good env ops s0 s evs hcont hg0 hrun
  refine ⟨hin, ?_, ?_, ?_⟩
  · exact (List.Nodup.subperm hin
      (fun x hx => ((hmem x).mp hx).1)).length_le
  · intro h
    rw [hun h]
    simp [buildItems, h]
  · intro sk hsk
    have hperm : s.items.Perm (s.master.filter fun i => s.fltr (env i)) := by
      rw [List.perm_ext_iff_of_nodup hin (hmn.filter _)]
      intro a
      rw [List.mem_filter]
      exact hmem a
    refine ⟨hperm, hsortp sk hsk, ?_⟩
    intro hinj
    haveI hA : IsAntisymm ι (fun x y =>
        sortOperatorOf s.sortRev (sk (env x)) (sk (env y)) = true) :=
      ⟨fun a b h1 h2 => by
        have h3 := sortOperatorOf_asymm s.sortRev (sk (env a)) (sk (env b)) h1
        rw [h2] at h3
        exact Bool.noConfusion h3⟩
    have hstrict : ∀ (l : List ι), l.Nodup → (∀ x ∈ l, x ∈ s.master) →
        l.Pairwise (fun x y =>
          sortOperatorOf s.sortRev (sk (env y)) (sk (env x)) = false) →
        List.Sorted (fun x y =>
          sortOperatorOf s.sortRev (sk (env x)) (sk (env y)) = true) l := by
      intro l hnd hsub hpw
      have hne : l.Pairwise (fun x y => x ≠ y) := hnd
      refine List.Pairwise.imp_of_mem ?_ (hpw.and hne)
      intro a b ha hb hab
      exact sortOperatorOf_true_of_false_of_ne s.sortRev _ _ hab.1
        (fun hkeq => hab.2 (hinj a (hsub a ha) b (hsub b hb) hkeq))
    have hsorted_items := hstrict s.items hin
      (fun x hx => ((hmem x).mp hx).1) (hsortp sk hsk)
    have hsorted_build := hstrict (buildItems env s) (buildItems_nodup env s hmn)
      (buildItems_subset_master env s) (buildItems_sorted env s sk hsk)
    have hperm2 : s.items.Perm (buildItems env s) :=
      hperm.trans (buildItems_perm env s).symm
    exact List.eq_of_perm_of_sorted hperm2 hsorted_items hsorted_build

/-- Witness for the amended C1: two concrete container inserts on a default
engine leave a duplicate-free derived list no longer than the master list. -/
theorem c1_derived_list_amended_witness :
    ([5, 7] : List Nat).Nodup ∧
      ([5, 7] : List Nat).length ≤ ([5, 7] : List Nat).length := by
  have H := @c1_derived_list_amended Nat Int Int _ _ (fun n => (n : Int))
    ([.insertItem 0 5, .insertItem 1 7] : List (Op Nat Int Int))
    (by intro op hop; fin_cases hop <;> trivial)
    (initState Nat Int Int) rfl rfl rfl
    (EngineState.mk [5, 7] [5, 7] (fun _ => true) none false 0)
    [.ins 5 0, .ins 7 1] (by rfl)
  exact ⟨H.1, H.2.1⟩

end NionListModel
